import Mathlib

/-! VGA's Little Helper Lib: drawing primitives (VGAHELPR.C)

A shallow embedding of the drawing primitives of `VGAHELPR.C` and the
properties of them that the specification states.

Modelling conventions.

* C `int` values are mathematical integers (`Int`).  Signed overflow is
  undefined behaviour in C, so every statement below is about executions in
  which no `int` overflows.
* Memory is addressed relative to the pointer `VGA`: `Machine.VGA a` is the
  byte at `VGA[a]`.  The framebuffer of mode 13h is the addresses
  `0 ≤ a < 64000`.
* `Machine.plotted` is a ghost trace: the coordinates of the pixels stored so
  far, in program order.  It is not read by any embedded function.
* `Machine.DEBUG` tells whether the library was compiled with `DEBUG`
  defined; `video_mode` and `console` are what the diagnostic path changes.
* A `while (i) { ...; i -= decrementer; }` loop is run with a fuel bound on
  the number of times its condition is evaluated; running out of fuel is
  `none`.  The counted `for (i = 0; i < n; i++)` loops of the Bresenham
  rasteriser run their body `n` times.
* The circle rasteriser depends on floating point in two places, the table
  `SIN_ACOS` filled by `build_tables` and the reciprocal of the radius.  Both
  are parameters of the embedding, as is the value of its local `i`, which
  the source reads without assigning it.  Values stored in a `word` are
  reduced modulo `2^16`.
-/

namespace VGAHelpr

/-- The type `byte` of the header: `typedef unsigned char byte`. -/
abbrev byte := Fin 256

/-- Header constant: 80x25 text mode. -/
def TEXT_MODE : byte := 0x03

/-- Header constant: screen width in mode 13h. -/
def SCREEN_WIDTH : Int := 320

/-- Header constant: screen height in mode 13h. -/
def SCREEN_HEIGHT : Int := 200

/-- The state the drawing primitives act on. -/
structure Machine where
  /-- Whether the build defines `DEBUG`. -/
  DEBUG : Bool
  /-- Memory as seen through the pointer `VGA`. -/
  VGA : Int → byte
  /-- The video mode last set through `vgahlpr_set_mode`. -/
  video_mode : byte
  /-- The lines printed so far. -/
  console : List String
  /-- Ghost trace of the pixels stored so far, oldest first. -/
  plotted : List (Int × Int)

/-- A machine in mode 13h with a black screen and nothing plotted. -/
def blank : Machine :=
  { DEBUG := false, VGA := fun _ => 0, video_mode := 0x13, console := [], plotted := [] }

/-- A coordinate pair that lies on the 320x200 screen. -/
def on_screen (x y : Int) : Prop :=
  0 ≤ x ∧ x < SCREEN_WIDTH ∧ 0 ≤ y ∧ y < SCREEN_HEIGHT

instance (x y : Int) : Decidable (on_screen x y) := by
  unfold on_screen; infer_instance

/-- The library function `abs` of `stdlib.h`. -/
def abs (number : Int) : Int :=
  if number < 0 then -number else number

/-- Source `int_sign`: `(number > 0) - (number < 0)`. -/
def int_sign (number : Int) : Int :=
  (if number > 0 then 1 else 0) - (if number < 0 then 1 else 0)

/-- Source `vgahlpr_set_mode`: the BIOS call is recorded as the new mode. -/
def vgahlpr_set_mode (mode : byte) (s : Machine) : Machine :=
  { s with video_mode := mode }

/-- The index expression `(y<<8) + (y<<6) + x` of the pixel stores and loads. -/
def pixel_offset (x y : Int) : Int :=
  (y <<< (8 : Int)) + (y <<< (6 : Int)) + x

/-- The store `VGA[(y<<8) + (y<<6) + x] = color`, traced as a plot of `(x, y)`. -/
def VGA_store (x y : Int) (color : byte) (s : Machine) : Machine :=
  { s with
    VGA := fun a => if a = pixel_offset x y then color else s.VGA a
    plotted := s.plotted ++ [(x, y)] }

/-- Source `vgahlpr_draw_pixel`.  The guarded block exists only in a `DEBUG`
build; its condition is the source's `x<0 && x>=320 && y<0 && y>=200`. -/
def vgahlpr_draw_pixel (x y : Int) (color : byte) (s : Machine) : Machine :=
  if s.DEBUG = true ∧ (x < 0 ∧ x ≥ 320 ∧ y < 0 ∧ y ≥ 200) then
    let s := vgahlpr_set_mode TEXT_MODE s
    { s with console := s.console ++ ["Error, pixel out of bounds!\n"] }
  else
    VGA_store x y color s

/-- Source `vgahlpr_read_pixel`. -/
def vgahlpr_read_pixel (x y : Int) (s : Machine) : byte :=
  s.VGA (pixel_offset x y)

/-- The loop `while (i) { body(i); i -= decrementer; }` shared by the line and
fill primitives; `fuel` bounds the number of evaluations of the condition. -/
def while_i (body : Int → Machine → Option Machine) (decrementer : Int) :
    Nat → Int → Machine → Option Machine
  | 0, _, _ => none
  | fuel + 1, i, s =>
    if i ≠ 0 then
      match body i s with
      | some s => while_i body decrementer fuel (i - decrementer) s
      | none => none
    else some s

/-- Source `vgahlpr_draw_vline`. -/
def vgahlpr_draw_vline (fuel : Nat) (x y rise : Int) (color : byte) (s : Machine) :
    Option Machine :=
  let s := vgahlpr_draw_pixel x y color s
  let i := rise
  let decrementer := int_sign rise
  while_i (fun i s => some (vgahlpr_draw_pixel x (y + i) color s)) decrementer fuel i s

/-- Source `vgahlpr_draw_hline`. -/
def vgahlpr_draw_hline (fuel : Nat) (x y run : Int) (color : byte) (s : Machine) :
    Option Machine :=
  let s := vgahlpr_draw_pixel x y color s
  let i := run
  let decrementer := int_sign run
  while_i (fun i s => some (vgahlpr_draw_pixel (x + i) y color s)) decrementer fuel i s

/-- The first `for` loop of `vgahlpr_draw_line` (line more horizontal than
vertical), with `n` iterations left to run. -/
def line_loop_run (abs_run abs_rise run_sign rise_sign : Int) (color : byte) :
    Nat → Int → Int → Int → Machine → Machine
  | 0, _, _, _, s => s
  | n + 1, half_run, position_x, position_y, s =>
    let half_run := half_run + abs_rise
    let step := decide (half_run ≥ abs_run)
    let half_run := if step then half_run - abs_run else half_run
    let position_y := if step then position_y + rise_sign else position_y
    let position_x := position_x + run_sign
    line_loop_run abs_run abs_rise run_sign rise_sign color n half_run position_x position_y
      (vgahlpr_draw_pixel position_x position_y color s)

/-- The second `for` loop of `vgahlpr_draw_line` (line more vertical than
horizontal), with `n` iterations left to run. -/
def line_loop_rise (abs_run abs_rise run_sign rise_sign : Int) (color : byte) :
    Nat → Int → Int → Int → Machine → Machine
  | 0, _, _, _, s => s
  | n + 1, half_rise, position_x, position_y, s =>
    let half_rise := half_rise + abs_run
    let step := decide (half_rise ≥ abs_rise)
    let half_rise := if step then half_rise - abs_rise else half_rise
    let position_x := if step then position_x + run_sign else position_x
    let position_y := position_y + rise_sign
    line_loop_rise abs_run abs_rise run_sign rise_sign color n half_rise position_x position_y
      (vgahlpr_draw_pixel position_x position_y color s)

/-- Source `vgahlpr_draw_line`: Bresenham line. -/
def vgahlpr_draw_line (x y run rise : Int) (color : byte) (s : Machine) : Machine :=
  let abs_run := abs run
  let abs_rise := abs rise
  let run_sign := int_sign run
  let rise_sign := int_sign rise
  let half_run := abs_run >>> (1 : Nat)
  let half_rise := abs_rise >>> (1 : Nat)
  let position_x := x
  let position_y := y
  let s := VGA_store position_x position_y color s
  if abs_run ≥ abs_rise then
    line_loop_run abs_run abs_rise run_sign rise_sign color abs_run.toNat
      half_run position_x position_y s
  else
    line_loop_rise abs_run abs_rise run_sign rise_sign color abs_rise.toNat
      half_rise position_x position_y s

/-- Source `vgahlpr_draw_rectangle`. -/
def vgahlpr_draw_rectangle (fuel : Nat) (x y run rise : Int) (color : byte) (s : Machine) :
    Option Machine := do
  let s ← vgahlpr_draw_hline fuel x y run color s
  let s ← vgahlpr_draw_hline fuel x (y + rise) run color s
  let s ← vgahlpr_draw_vline fuel x y rise color s
  vgahlpr_draw_vline fuel (x + run) y rise color s

/-- Source `vgahlpr_draw_filled_rectangle`. -/
def vgahlpr_draw_filled_rectangle (fuel : Nat) (x y run rise : Int) (color : byte)
    (s : Machine) : Option Machine := do
  let i := run
  let decrementer := int_sign run
  let s ← vgahlpr_draw_vline fuel x y rise color s
  while_i (fun i s => vgahlpr_draw_vline fuel (x + i) y rise color s) decrementer fuel i s

/-- Source `vgahlpr_draw_outlined_rectangle`. -/
def vgahlpr_draw_outlined_rectangle (fuel : Nat) (x y run rise : Int)
    (outline_color fill_color : byte) (s : Machine) : Option Machine := do
  let x_offset := int_sign run
  let y_offset := int_sign rise
  let s ← vgahlpr_draw_rectangle fuel x y run rise outline_color s
  vgahlpr_draw_filled_rectangle fuel (x + x_offset) (y + y_offset)
    (run - 2 * x_offset) (rise - 2 * y_offset) fill_color s

/-- Source `vgahlpr_draw_vline_absolute`. -/
def vgahlpr_draw_vline_absolute (fuel : Nat) (x start_y end_y : Int) (color : byte)
    (s : Machine) : Option Machine :=
  vgahlpr_draw_vline fuel x start_y (end_y - start_y) color s

/-- Source `vgahlpr_draw_hline_absolute`; its body calls `vgahlpr_draw_vline`. -/
def vgahlpr_draw_hline_absolute (fuel : Nat) (start_x y end_x : Int) (color : byte)
    (s : Machine) : Option Machine :=
  vgahlpr_draw_vline fuel start_x y (end_x - start_x) color s

/-- Conversion of an `int` value to `word` (`unsigned short`, 16 bits). -/
def to_word (v : Int) : Int :=
  v % 65536

/-- The store `VGA[a] = color` through a computed index.  Such a store names no
coordinate pair, so nothing is added to the trace of plotted pixels. -/
def VGA_write (a : Int) (color : byte) (s : Machine) : Machine :=
  { s with VGA := fun b => if b = a then color else s.VGA b }

/-- The `while` loop of `vgahlpr_draw_circle`.  `SIN_ACOS k` is what the read
`SIN_ACOS[k]` yields, `inverse_radius` the value of the floating-point
initialiser `(1/(float)radius)*0x10000L`, and `i` the value of the local `i`,
which the source never assigns.  The last argument is a ghost trace of the
table indices read so far. -/
def circle_loop (SIN_ACOS : Int → Int) (radius inverse_radius i offset : Int) (color : byte) :
    Nat → Int → Int → Int → Machine → List Int → Option (Machine × List Int)
  | 0, _, _, _, _, _ => none
  | fuel + 1, n, difference_x, difference_y, s, reads =>
    if difference_x ≤ difference_y then
      let x_offset := to_word ((difference_x <<< (8 : Int)) + (difference_x <<< (6 : Int)))
      let y_offset := to_word ((difference_y <<< (8 : Int)) + (difference_x <<< (6 : Int)))
      let s := VGA_write (offset + i - x_offset) color s
      let s := VGA_write (offset + difference_x - y_offset) color s
      let s := VGA_write (offset - difference_x - y_offset) color s
      let s := VGA_write (offset - difference_y - x_offset) color s
      let s := VGA_write (offset - difference_y + x_offset) color s
      let s := VGA_write (offset - difference_x + y_offset) color s
      let s := VGA_write (offset + difference_x + y_offset) color s
      let s := VGA_write (offset + difference_y + x_offset) color s
      let difference_x := difference_x + 1
      let n := n + inverse_radius
      let index := n >>> (6 : Nat)
      let difference_y := (radius * SIN_ACOS index) >>> (16 : Nat)
      circle_loop SIN_ACOS radius inverse_radius i offset color fuel n difference_x
        difference_y s (reads ++ [index])
    else some (s, reads)

/-- Source `vgahlpr_draw_circle`.  The result is the machine and the table
indices read, in order. -/
def vgahlpr_draw_circle (SIN_ACOS : Int → Int) (inverse_radius i : Int) (fuel : Nat)
    (center_x center_y radius : Int) (color : byte) (s : Machine) :
    Option (Machine × List Int) :=
  let n := 0
  let difference_x := 0
  let difference_y := radius - 1
  let offset := to_word ((center_y <<< (8 : Int)) + (center_y <<< (6 : Int)) + center_x)
  circle_loop SIN_ACOS radius inverse_radius i offset color fuel n difference_x
    difference_y s []

/-! ## The line algorithm as the specification words it -/

/-- The steps of the specification's line algorithm, in (major, minor)
coordinates: advance the major coordinate by its sign, add the minor magnitude
to the accumulator, and when the accumulator reaches or exceeds the major
magnitude subtract it and advance the minor coordinate by its sign; plot after
each step. -/
def reference_steps (major minor major_sign minor_sign : Int) :
    Nat → Int → Int → Int → List (Int × Int)
  | 0, _, _, _ => []
  | n + 1, accumulator, a, b =>
    let a := a + major_sign
    let accumulator := accumulator + minor
    if accumulator ≥ major then
      (a, b + minor_sign)
        :: reference_steps major minor major_sign minor_sign n (accumulator - major) a
            (b + minor_sign)
    else
      (a, b) :: reference_steps major minor major_sign minor_sign n accumulator a b

/-- The specification's line algorithm for a given initial accumulator
`start major minor`: the major axis is the larger of `|run|`, `|rise|` (ties
favour the run axis), the start pixel is plotted first, and
`max(|run|,|rise|)` steps follow. -/
def reference_line (start : Int → Int → Int) (x y run rise : Int) : List (Int × Int) :=
  let absRun : Int := run.natAbs
  let absRise : Int := rise.natAbs
  let signRun := Int.sign run
  let signRise := Int.sign rise
  if absRun ≥ absRise then
    (x, y) :: reference_steps absRun absRise signRun signRise absRun.toNat
      (start absRun absRise) x y
  else
    (x, y) :: (reference_steps absRise absRun signRise signRun absRise.toNat
      (start absRise absRun) y x).map Prod.swap

/-- The line algorithm as the specification states it: the accumulator starts
at half the minor-axis magnitude. -/
def spec_drawLine (x y run rise : Int) : List (Int × Int) :=
  reference_line (fun _ minor => minor / 2) x y run rise

/-- The specification's line algorithm with the accumulator started at half
the major-axis magnitude, rounded down. -/
def spec_drawLine_half_major (x y run rise : Int) : List (Int × Int) :=
  reference_line (fun major _ => major / 2) x y run rise

/-! ## Fixtures for concrete runs -/

/-- The machine `blank` in a build that defines `DEBUG`. -/
def blank_debug : Machine :=
  { blank with DEBUG := true }

/-- Integer square root by bits: the largest `r` below `2^k` added to the given
root whose square does not exceed `n`. -/
def isqrt_bits (n : Nat) : Nat → Nat → Nat
  | 0, r => r
  | k + 1, r =>
    if (r + 2 ^ k) * (r + 2 ^ k) ≤ n then isqrt_bits n k (r + 2 ^ k) else isqrt_bits n k r

/-- A table for concrete runs of the circle: entry `k` of `0..1023` is
`65536 * sqrt(1 - (k/1024)^2)` rounded down, the value that `build_tables`
computes in floating point as `sin(acos((float)k/1024))*0x10000L`; a read
outside the table yields 0. -/
def SIN_ACOS_exact (k : Int) : Int :=
  if 0 ≤ k ∧ k < 1024 then
    ((isqrt_bits (4096 * (1048576 - k.toNat * k.toNat)) 17 0 : Nat) : Int)
  else 0

/-! ## Proof devices

The definitions below are not part of the program: they describe the pixels a
primitive plots, as lists, so that its effect can be stated and compared. -/

/-- Plotting the pixels of `L`, in order, in one colour. -/
def plots (color : byte) (L : List (Int × Int)) (s : Machine) : Machine :=
  L.foldl (fun s p => VGA_store p.1 p.2 color s) s

/-- The values `k*dec, (k-1)*dec, ..., 1*dec` that the counter `i` of a
`while (i)` loop takes when it starts at `k*dec`. -/
def countdown (dec : Int) : Nat → List Int
  | 0 => []
  | k + 1 => ((k + 1 : Nat) : Int) * dec :: countdown dec k

/-- The offsets at which a line primitive of signed length `r` plots: `0` for
the start pixel, then the values of the loop counter. -/
def offsets (r : Int) : List Int :=
  0 :: countdown (int_sign r) r.natAbs

/-- The pixels plotted by `vgahlpr_draw_hline x y run`, in order. -/
def hline_pixels (x y run : Int) : List (Int × Int) :=
  (offsets run).map (fun i => (x + i, y))

/-- The pixels plotted by `vgahlpr_draw_vline x y rise`, in order. -/
def vline_pixels (x y rise : Int) : List (Int × Int) :=
  (offsets rise).map (fun i => (x, y + i))

/-- The pixels plotted by the first `for` loop of `vgahlpr_draw_line`, in
order: the loop `line_loop_run` with the stores left out. -/
def run_trace (abs_run abs_rise run_sign rise_sign : Int) :
    Nat → Int → Int → Int → List (Int × Int)
  | 0, _, _, _ => []
  | n + 1, half_run, position_x, position_y =>
    let half_run := half_run + abs_rise
    let step := decide (half_run ≥ abs_run)
    let half_run := if step then half_run - abs_run else half_run
    let position_y := if step then position_y + rise_sign else position_y
    let position_x := position_x + run_sign
    (position_x, position_y)
      :: run_trace abs_run abs_rise run_sign rise_sign n half_run position_x position_y

/-- The pixels plotted by `vgahlpr_draw_line x y run rise`, in order.  The
second loop is the first one with the two axes exchanged. -/
def line_pixels (x y run rise : Int) : List (Int × Int) :=
  (x, y) ::
    if abs run ≥ abs rise then
      run_trace (abs run) (abs rise) (int_sign run) (int_sign rise) (abs run).toNat
        (abs run >>> (1 : Nat)) x y
    else
      (run_trace (abs rise) (abs run) (int_sign rise) (int_sign run) (abs rise).toNat
        (abs rise >>> (1 : Nat)) y x).map Prod.swap

/-- The pixels plotted by `vgahlpr_draw_rectangle x y run rise`, in order. -/
def rectangle_pixels (x y run rise : Int) : List (Int × Int) :=
  hline_pixels x y run ++ hline_pixels x (y + rise) run
    ++ vline_pixels x y rise ++ vline_pixels (x + run) y rise

/-- The pixels plotted by `vgahlpr_draw_filled_rectangle x y run rise`, in order. -/
def filled_rectangle_pixels (x y run rise : Int) : List (Int × Int) :=
  (offsets run).flatMap (fun i => vline_pixels (x + i) y rise)

/-! ## Pixels and memory -/

theorem pixel_offset_eq (x y : Int) : pixel_offset x y = y * 320 + x := by
  unfold pixel_offset
  have h8 := Int.shiftLeft_eq_mul_pow y 8
  have h6 := Int.shiftLeft_eq_mul_pow y 6
  norm_num at h8 h6
  rw [h8, h6]; ring

theorem pixel_offset_inj {x y x' y' : Int} (h : on_screen x y) (h' : on_screen x' y')
    (e : pixel_offset x y = pixel_offset x' y') : x = x' ∧ y = y' := by
  simp only [pixel_offset_eq] at e
  simp only [on_screen, SCREEN_WIDTH, SCREEN_HEIGHT] at h h'
  omega

theorem pixel_offset_range {x y : Int} (h : on_screen x y) :
    0 ≤ pixel_offset x y ∧ pixel_offset x y < 64000 := by
  simp only [pixel_offset_eq]
  simp only [on_screen, SCREEN_WIDTH, SCREEN_HEIGHT] at h
  omega

/-- The `DEBUG` guard of `vgahlpr_draw_pixel` is never taken: the pixel is
stored in either build. -/
theorem vgahlpr_draw_pixel_eq (x y : Int) (c : byte) (s : Machine) :
    vgahlpr_draw_pixel x y c s = VGA_store x y c s := by
  unfold vgahlpr_draw_pixel
  rw [if_neg]
  rintro ⟨-, h1, h2, -⟩
  omega

theorem plots_nil (c : byte) (s : Machine) : plots c [] s = s := rfl

theorem plots_cons (c : byte) (p : Int × Int) (L : List (Int × Int)) (s : Machine) :
    plots c (p :: L) s = plots c L (VGA_store p.1 p.2 c s) := rfl

theorem plots_append (c : byte) (L M : List (Int × Int)) (s : Machine) :
    plots c (L ++ M) s = plots c M (plots c L s) := by
  simp [plots, List.foldl_append]

theorem plots_plotted (c : byte) (L : List (Int × Int)) (s : Machine) :
    (plots c L s).plotted = s.plotted ++ L := by
  induction L generalizing s with
  | nil => simp [plots_nil]
  | cons p L ih => rw [plots_cons, ih]; simp [VGA_store]

theorem plots_VGA (c : byte) (L : List (Int × Int)) (s : Machine) (a : Int) :
    (plots c L s).VGA a
      = if ∃ p ∈ L, a = pixel_offset p.1 p.2 then c else s.VGA a := by
  induction L generalizing s with
  | nil => simp [plots_nil]
  | cons p L ih =>
    rw [plots_cons, ih]
    by_cases h : ∃ q ∈ L, a = pixel_offset q.1 q.2
    · have h' : ∃ q ∈ p :: L, a = pixel_offset q.1 q.2 := by
        obtain ⟨q, hq, e⟩ := h
        exact ⟨q, List.mem_cons_of_mem _ hq, e⟩
      rw [if_pos h, if_pos h']
    · rw [if_neg h]
      by_cases e : a = pixel_offset p.1 p.2
      · have h' : ∃ q ∈ p :: L, a = pixel_offset q.1 q.2 := ⟨p, List.mem_cons_self _ _, e⟩
        rw [if_pos h']; simp [VGA_store, e]
      · have h' : ¬ ∃ q ∈ p :: L, a = pixel_offset q.1 q.2 := by
          rintro ⟨q, hq, e'⟩
          rcases List.mem_cons.1 hq with rfl | hq
          · exact e e'
          · exact h ⟨q, hq, e'⟩
        rw [if_neg h']; simp [VGA_store, e]

/-- Reading an on-screen pixel after plotting on-screen pixels. -/
theorem plots_read (c : byte) (L : List (Int × Int)) (s : Machine)
    (hL : ∀ p ∈ L, on_screen p.1 p.2) (px py : Int) (h : on_screen px py) :
    vgahlpr_read_pixel px py (plots c L s)
      = if (px, py) ∈ L then c else vgahlpr_read_pixel px py s := by
  unfold vgahlpr_read_pixel
  rw [plots_VGA]
  by_cases hm : (px, py) ∈ L
  · rw [if_pos hm, if_pos ⟨(px, py), hm, rfl⟩]
  · rw [if_neg hm, if_neg]
    rintro ⟨q, hq, e⟩
    obtain ⟨e1, e2⟩ := pixel_offset_inj h (hL q hq) e
    apply hm
    have : q = (px, py) := by ext <;> simp [e1, e2]
    rwa [← this]

/-- Plotting on-screen pixels leaves memory outside the framebuffer alone. -/
theorem plots_outside (c : byte) (L : List (Int × Int)) (s : Machine)
    (hL : ∀ p ∈ L, on_screen p.1 p.2) (a : Int) (h : a < 0 ∨ 64000 ≤ a) :
    (plots c L s).VGA a = s.VGA a := by
  rw [plots_VGA, if_neg]
  rintro ⟨q, hq, e⟩
  have := pixel_offset_range (hL q hq)
  omega

/-! ## The counting loop -/

theorem int_sign_pos {r : Int} (h : 0 < r) : int_sign r = 1 := by
  unfold int_sign
  rw [if_pos h, if_neg (by omega)]; rfl

theorem int_sign_neg {r : Int} (h : r < 0) : int_sign r = -1 := by
  unfold int_sign
  rw [if_neg (by omega), if_pos h]; rfl

theorem int_sign_zero : int_sign 0 = 0 := rfl

theorem natAbs_mul_int_sign (r : Int) : (r.natAbs : Int) * int_sign r = r := by
  rcases lt_trichotomy r 0 with h | h | h
  · rw [int_sign_neg h]; omega
  · subst h; rfl
  · rw [int_sign_pos h]; omega

theorem int_sign_ne_zero {r : Int} (h : r ≠ 0) : int_sign r ≠ 0 := by
  rcases lt_trichotomy r 0 with h' | h' | h'
  · rw [int_sign_neg h']; decide
  · exact absurd h' h
  · rw [int_sign_pos h']; decide

theorem abs_eq_natAbs (r : Int) : abs r = (r.natAbs : Int) := by
  unfold abs
  split <;> omega

/-- A `while (i)` loop started at `k*dec` whose body plots the pixels `P i`
runs `k` times and plots `P (k*dec)`, ..., `P dec`. -/
theorem while_i_plots (body : Int → Machine → Option Machine) (c : byte)
    (P : Int → List (Int × Int)) (hbody : ∀ i s, body i s = some (plots c (P i) s))
    (dec : Int) :
    ∀ (k : Nat), (k ≠ 0 → dec ≠ 0) → ∀ (fuel : Nat), k < fuel → ∀ s,
      while_i body dec fuel ((k : Int) * dec) s
        = some (plots c ((countdown dec k).flatMap P) s) := by
  intro k
  induction k with
  | zero =>
    intro _ fuel hf s
    obtain ⟨f, rfl⟩ : ∃ f, fuel = f + 1 := ⟨fuel - 1, by omega⟩
    simp [while_i, countdown, plots_nil]
  | succ k ih =>
    intro hd fuel hf s
    obtain ⟨f, rfl⟩ : ∃ f, fuel = f + 1 := ⟨fuel - 1, by omega⟩
    have hdec : dec ≠ 0 := hd (Nat.succ_ne_zero k)
    have hi : ((k + 1 : Nat) : Int) * dec ≠ 0 :=
      mul_ne_zero (by exact_mod_cast Nat.succ_ne_zero k) hdec
    have hstep : ((k + 1 : Nat) : Int) * dec - dec = (k : Int) * dec := by
      push_cast; ring
    rw [while_i, if_pos hi, hbody]
    simp only []
    rw [hstep, ih (fun _ => hdec) f (by omega)]
    simp [countdown, plots_append]

theorem mem_countdown (dec : Int) (k : Nat) (v : Int) :
    v ∈ countdown dec k ↔ ∃ j : Nat, 1 ≤ j ∧ j ≤ k ∧ v = (j : Int) * dec := by
  induction k with
  | zero =>
    simp only [countdown, List.not_mem_nil, false_iff]
    rintro ⟨j, h1, h2, -⟩
    omega
  | succ k ih =>
    simp only [countdown, List.mem_cons, ih]
    constructor
    · rintro (h | ⟨j, h1, h2, h3⟩)
      · exact ⟨k + 1, by omega, le_refl _, h⟩
      · exact ⟨j, h1, by omega, h3⟩
    · rintro ⟨j, h1, h2, h3⟩
      by_cases e : j = k + 1
      · left; rw [h3, e]
      · right; exact ⟨j, h1, by omega, h3⟩

theorem length_countdown (dec : Int) (k : Nat) : (countdown dec k).length = k := by
  induction k with
  | zero => rfl
  | succ k ih => simp [countdown, ih]

theorem nodup_countdown (dec : Int) (hdec : dec ≠ 0) (k : Nat) : (countdown dec k).Nodup := by
  induction k with
  | zero => simp [countdown]
  | succ k ih =>
    simp only [countdown, List.nodup_cons]
    refine ⟨?_, ih⟩
    rw [mem_countdown]
    rintro ⟨j, -, h2, h3⟩
    have := mul_right_cancel₀ hdec h3
    omega

theorem mem_offsets (r v : Int) : v ∈ offsets r ↔ min 0 r ≤ v ∧ v ≤ max 0 r := by
  unfold offsets
  rw [List.mem_cons, mem_countdown]
  rcases lt_trichotomy r 0 with h | h | h
  · rw [int_sign_neg h, min_eq_right h.le, max_eq_left h.le]
    constructor
    · rintro (e | ⟨j, h1, h2, e⟩) <;> omega
    · intro hv
      by_cases e : v = 0
      · exact Or.inl e
      · exact Or.inr ⟨v.natAbs, by omega, by omega, by omega⟩
  · subst h
    simp only [min_self, max_self, Int.natAbs_zero]
    constructor
    · rintro (e | ⟨j, h1, h2, e⟩) <;> omega
    · intro hv; left; omega
  · rw [int_sign_pos h, min_eq_left h.le, max_eq_right h.le]
    constructor
    · rintro (e | ⟨j, h1, h2, e⟩) <;> omega
    · intro hv
      by_cases e : v = 0
      · exact Or.inl e
      · exact Or.inr ⟨v.natAbs, by omega, by omega, by omega⟩

theorem length_offsets (r : Int) : (offsets r).length = r.natAbs + 1 := by
  simp [offsets, length_countdown]

theorem nodup_offsets (r : Int) : (offsets r).Nodup := by
  unfold offsets
  rw [List.nodup_cons]
  by_cases h : r = 0
  · subst h; simp [countdown]
  · refine ⟨?_, nodup_countdown _ (int_sign_ne_zero h) _⟩
    rw [mem_countdown]
    rintro ⟨j, h1, -, h3⟩
    have hj : (j : Int) ≠ 0 := by omega
    exact mul_ne_zero hj (int_sign_ne_zero h) h3.symm

/-- A primitive that plots `P 0` and then runs `while (i)` from `r`, plotting
`P i` in the body, plots `P` along `offsets r`. -/
theorem start_then_while (body : Int → Machine → Option Machine) (c : byte)
    (P : Int → List (Int × Int)) (hbody : ∀ i s, body i s = some (plots c (P i) s))
    (r : Int) (fuel : Nat) (hf : r.natAbs < fuel) (s : Machine) :
    while_i body (int_sign r) fuel r (plots c (P 0) s)
      = some (plots c ((offsets r).flatMap P) s) := by
  have h := while_i_plots body c P hbody (int_sign r) r.natAbs
    (fun hk => int_sign_ne_zero (fun e => hk (by simp [e]))) fuel hf (plots c (P 0) s)
  rw [natAbs_mul_int_sign] at h
  rw [h]
  simp [offsets, plots_append]

theorem vgahlpr_draw_vline_eq (fuel : Nat) (x y rise : Int) (c : byte) (s : Machine)
    (hf : rise.natAbs < fuel) :
    vgahlpr_draw_vline fuel x y rise c s = some (plots c (vline_pixels x y rise) s) := by
  unfold vgahlpr_draw_vline
  have h := start_then_while (fun i s => some (vgahlpr_draw_pixel x (y + i) c s)) c
    (fun i => [(x, y + i)]) (fun i s => by simp [vgahlpr_draw_pixel_eq, plots])
    rise fuel hf s
  simp only [vgahlpr_draw_pixel_eq]
  simp only [plots_cons, plots_nil, add_zero, vgahlpr_draw_pixel_eq] at h
  rw [h, vline_pixels]
  congr 2
  induction offsets rise with
  | nil => rfl
  | cons a L ih => simp [ih]

theorem vgahlpr_draw_hline_eq (fuel : Nat) (x y run : Int) (c : byte) (s : Machine)
    (hf : run.natAbs < fuel) :
    vgahlpr_draw_hline fuel x y run c s = some (plots c (hline_pixels x y run) s) := by
  unfold vgahlpr_draw_hline
  have h := start_then_while (fun i s => some (vgahlpr_draw_pixel (x + i) y c s)) c
    (fun i => [(x + i, y)]) (fun i s => by simp [vgahlpr_draw_pixel_eq, plots])
    run fuel hf s
  simp only [vgahlpr_draw_pixel_eq]
  simp only [plots_cons, plots_nil, add_zero, vgahlpr_draw_pixel_eq] at h
  rw [h, hline_pixels]
  congr 2
  induction offsets run with
  | nil => rfl
  | cons a L ih => simp [ih]

theorem mem_hline_pixels (x y run px py : Int) :
    (px, py) ∈ hline_pixels x y run ↔ py = y ∧ min x (x + run) ≤ px ∧ px ≤ max x (x + run) := by
  unfold hline_pixels
  simp only [List.mem_map, mem_offsets, Prod.mk.injEq]
  constructor
  · rintro ⟨i, ⟨h1, h2⟩, rfl, rfl⟩
    refine ⟨rfl, ?_, ?_⟩ <;> omega
  · rintro ⟨rfl, h1, h2⟩
    exact ⟨px - x, ⟨by omega, by omega⟩, by omega, rfl⟩

theorem mem_vline_pixels (x y rise px py : Int) :
    (px, py) ∈ vline_pixels x y rise ↔ px = x ∧ min y (y + rise) ≤ py ∧ py ≤ max y (y + rise) := by
  unfold vline_pixels
  simp only [List.mem_map, mem_offsets, Prod.mk.injEq]
  constructor
  · rintro ⟨i, ⟨h1, h2⟩, rfl, rfl⟩
    refine ⟨rfl, ?_, ?_⟩ <;> omega
  · rintro ⟨rfl, h1, h2⟩
    exact ⟨py - y, ⟨by omega, by omega⟩, rfl, by omega⟩

theorem on_screen_iff (x y : Int) :
    on_screen x y ↔ (0 ≤ x ∧ x < 320) ∧ (0 ≤ y ∧ y < 200) := by
  simp only [on_screen, SCREEN_WIDTH, SCREEN_HEIGHT]
  tauto

theorem hline_pixels_on_screen (x y run : Int) (hx : 0 ≤ x ∧ x < 320)
    (hxr : 0 ≤ x + run ∧ x + run < 320) (hy : 0 ≤ y ∧ y < 200) :
    ∀ p ∈ hline_pixels x y run, on_screen p.1 p.2 := by
  rintro ⟨px, py⟩ hp
  rw [mem_hline_pixels] at hp
  rw [on_screen_iff]
  obtain ⟨rfl, h1, h2⟩ := hp
  refine ⟨⟨?_, ?_⟩, hy⟩ <;> omega

theorem vline_pixels_on_screen (x y rise : Int) (hx : 0 ≤ x ∧ x < 320)
    (hy : 0 ≤ y ∧ y < 200) (hyr : 0 ≤ y + rise ∧ y + rise < 200) :
    ∀ p ∈ vline_pixels x y rise, on_screen p.1 p.2 := by
  rintro ⟨px, py⟩ hp
  rw [mem_vline_pixels] at hp
  rw [on_screen_iff]
  obtain ⟨rfl, h1, h2⟩ := hp
  refine ⟨hx, ?_, ?_⟩ <;> omega

theorem length_hline_pixels (x y run : Int) :
    (hline_pixels x y run).length = run.natAbs + 1 := by
  simp [hline_pixels, length_offsets]

theorem length_vline_pixels (x y rise : Int) :
    (vline_pixels x y rise).length = rise.natAbs + 1 := by
  simp [vline_pixels, length_offsets]

theorem nodup_hline_pixels (x y run : Int) : (hline_pixels x y run).Nodup := by
  unfold hline_pixels
  refine (nodup_offsets run).map ?_
  intro a b h
  simp only [Prod.mk.injEq] at h
  omega

theorem nodup_vline_pixels (x y rise : Int) : (vline_pixels x y rise).Nodup := by
  unfold vline_pixels
  refine (nodup_offsets rise).map ?_
  intro a b h
  simp only [Prod.mk.injEq] at h
  omega

/-! ## Pixels -/

/-- C1: for an on-screen coordinate, any colour and any framebuffer,
`vgahlpr_read_pixel(x, y)` after `vgahlpr_draw_pixel(x, y, color)` returns
`color` (in the release build and in the `DEBUG` build alike). -/
theorem read_pixel_after_draw_pixel (x y : Int) (color : byte) (s : Machine)
    (hx : 0 ≤ x ∧ x < 320) (hy : 0 ≤ y ∧ y < 200) :
    vgahlpr_read_pixel x y (vgahlpr_draw_pixel x y color s) = color := by
  rw [vgahlpr_draw_pixel_eq]
  simp [vgahlpr_read_pixel, VGA_store]

/-- Witness of C1 at the bottom-right pixel of the screen. -/
theorem read_pixel_after_draw_pixel_witness :
    ((0 : Int) ≤ 319 ∧ (319 : Int) < 320) ∧ ((0 : Int) ≤ 199 ∧ (199 : Int) < 200) ∧
      vgahlpr_read_pixel 319 199 (vgahlpr_draw_pixel 319 199 7 blank) = 7 :=
  ⟨by decide, by decide,
    read_pixel_after_draw_pixel 319 199 7 blank (by decide) (by decide)⟩

/-! ## Horizontal and vertical lines -/

/-- C2: when the row segment from `(x, y)` to `(x+run, y)` is on screen,
`vgahlpr_draw_hline(x, y, run, color)` returns, plots `|run|+1` distinct pixels,
which are exactly the pixels `(x', y)` with `x'` between `x` and `x+run`
inclusive; afterwards each of them reads `color`, every other on-screen pixel
reads what it read before, and memory outside the framebuffer is unchanged. -/
theorem draw_hline_exact (x y run : Int) (color : byte) (s : Machine) (fuel : Nat)
    (hx : 0 ≤ x ∧ x < 320) (hxr : 0 ≤ x + run ∧ x + run < 320) (hy : 0 ≤ y ∧ y < 200)
    (hfuel : run.natAbs < fuel) :
    ∃ s' L, vgahlpr_draw_hline fuel x y run color s = some s' ∧
      s'.plotted = s.plotted ++ L ∧ L.length = run.natAbs + 1 ∧ L.Nodup ∧
      (∀ px py, (px, py) ∈ L ↔ py = y ∧ min x (x + run) ≤ px ∧ px ≤ max x (x + run)) ∧
      (∀ px py, 0 ≤ px ∧ px < 320 → 0 ≤ py ∧ py < 200 →
        vgahlpr_read_pixel px py s' =
          if py = y ∧ min x (x + run) ≤ px ∧ px ≤ max x (x + run) then color
          else vgahlpr_read_pixel px py s) ∧
      (∀ a, a < 0 ∨ 64000 ≤ a → s'.VGA a = s.VGA a) := by
  have hon := hline_pixels_on_screen x y run hx hxr hy
  refine ⟨_, hline_pixels x y run, vgahlpr_draw_hline_eq fuel x y run color s hfuel,
    plots_plotted _ _ _, length_hline_pixels x y run, nodup_hline_pixels x y run,
    mem_hline_pixels x y run, ?_, plots_outside _ _ _ hon⟩
  intro px py hpx hpy
  rw [plots_read _ _ _ hon px py ((on_screen_iff px py).2 ⟨hpx, hpy⟩)]
  simp only [mem_hline_pixels]

/-- Witness of C2: a leftward run of 5 from `(10, 20)`. -/
theorem draw_hline_exact_witness :
    ∃ s', vgahlpr_draw_hline 6 10 20 (-5) 7 blank = some s' ∧
      s'.plotted.length = 6 ∧ vgahlpr_read_pixel 5 20 s' = 7 ∧
      vgahlpr_read_pixel 4 20 s' = 0 ∧ vgahlpr_read_pixel 11 20 s' = 0 := by
  obtain ⟨s', L, h1, h2, h3, -, -, h6, -⟩ :=
    draw_hline_exact 10 20 (-5) 7 blank 6 (by decide) (by decide) (by decide) (by decide)
  refine ⟨s', h1, ?_, ?_, ?_, ?_⟩
  · rw [h2, List.length_append, h3]; rfl
  · rw [h6 5 20 (by decide) (by decide)]; rfl
  · rw [h6 4 20 (by decide) (by decide)]; rfl
  · rw [h6 11 20 (by decide) (by decide)]; rfl

/-- C3: when the column segment from `(x, y)` to `(x, y+rise)` is on screen,
`vgahlpr_draw_vline(x, y, rise, color)` terminates (any fuel above `|rise|`
suffices), plots `|rise|+1` distinct pixels, which are exactly the pixels
`(x, y')` with `y'` between `y` and `y+rise` inclusive; afterwards each of them
reads `color`, every other on-screen pixel reads what it read before, and
memory outside the framebuffer is unchanged.  For `rise = 0` the only pixel
plotted is `(x, y)`. -/
theorem draw_vline_exact (x y rise : Int) (color : byte) (s : Machine) (fuel : Nat)
    (hx : 0 ≤ x ∧ x < 320) (hy : 0 ≤ y ∧ y < 200) (hyr : 0 ≤ y + rise ∧ y + rise < 200)
    (hfuel : rise.natAbs < fuel) :
    ∃ s' L, vgahlpr_draw_vline fuel x y rise color s = some s' ∧
      s'.plotted = s.plotted ++ L ∧ L.length = rise.natAbs + 1 ∧ L.Nodup ∧
      (∀ px py, (px, py) ∈ L ↔ px = x ∧ min y (y + rise) ≤ py ∧ py ≤ max y (y + rise)) ∧
      (∀ px py, 0 ≤ px ∧ px < 320 → 0 ≤ py ∧ py < 200 →
        vgahlpr_read_pixel px py s' =
          if px = x ∧ min y (y + rise) ≤ py ∧ py ≤ max y (y + rise) then color
          else vgahlpr_read_pixel px py s) ∧
      (∀ a, a < 0 ∨ 64000 ≤ a → s'.VGA a = s.VGA a) ∧
      (rise = 0 → L = [(x, y)]) := by
  have hon := vline_pixels_on_screen x y rise hx hy hyr
  refine ⟨_, vline_pixels x y rise, vgahlpr_draw_vline_eq fuel x y rise color s hfuel,
    plots_plotted _ _ _, length_vline_pixels x y rise, nodup_vline_pixels x y rise,
    mem_vline_pixels x y rise, ?_, plots_outside _ _ _ hon, ?_⟩
  · intro px py hpx hpy
    rw [plots_read _ _ _ hon px py ((on_screen_iff px py).2 ⟨hpx, hpy⟩)]
    simp only [mem_vline_pixels]
  · rintro rfl
    simp [vline_pixels, offsets, countdown]

/-- Witness of C3: the degenerate column `rise = 0` at `(3, 4)`. -/
theorem draw_vline_exact_witness :
    ∃ s', vgahlpr_draw_vline 1 3 4 0 7 blank = some s' ∧
      s'.plotted = [(3, 4)] ∧ vgahlpr_read_pixel 3 4 s' = 7 ∧
      vgahlpr_read_pixel 3 5 s' = 0 := by
  obtain ⟨s', L, h1, h2, -, -, -, h6, -, h8⟩ :=
    draw_vline_exact 3 4 0 7 blank 1 (by decide) (by decide) (by decide) (by decide)
  refine ⟨s', h1, ?_, ?_, ?_⟩
  · rw [h2, h8 rfl]; rfl
  · rw [h6 3 4 (by decide) (by decide)]; rfl
  · rw [h6 3 5 (by decide) (by decide)]; rfl

/-! ## The Bresenham line -/

theorem line_loop_run_eq (A B sx sy : Int) (c : byte) :
    ∀ (n : Nat) (half px py : Int) (s : Machine),
      line_loop_run A B sx sy c n half px py s
        = plots c (run_trace A B sx sy n half px py) s := by
  intro n
  induction n with
  | zero => intro half px py s; rfl
  | succ n ih =>
    intro half px py s
    simp only [line_loop_run, run_trace, plots_cons, vgahlpr_draw_pixel_eq, ih]

theorem line_loop_rise_eq (A B sx sy : Int) (c : byte) :
    ∀ (n : Nat) (half px py : Int) (s : Machine),
      line_loop_rise A B sx sy c n half px py s
        = plots c ((run_trace B A sy sx n half py px).map Prod.swap) s := by
  intro n
  induction n with
  | zero => intro half px py s; rfl
  | succ n ih =>
    intro half px py s
    simp only [line_loop_rise, run_trace, List.map_cons, Prod.swap_prod_mk, plots_cons,
      vgahlpr_draw_pixel_eq, ih]

theorem vgahlpr_draw_line_eq (x y run rise : Int) (c : byte) (s : Machine) :
    vgahlpr_draw_line x y run rise c s = plots c (line_pixels x y run rise) s := by
  unfold vgahlpr_draw_line line_pixels
  simp only [plots_cons]
  split
  · rw [line_loop_run_eq]
  · rw [line_loop_rise_eq]

theorem length_run_trace (A B sx sy : Int) :
    ∀ (n : Nat) (half px py : Int), (run_trace A B sx sy n half px py).length = n := by
  intro n
  induction n with
  | zero => intro half px py; rfl
  | succ n ih => intro half px py; simp [run_trace, ih]

/-- The loop invariant of the Bresenham loop in closed form: started with the
accumulator at `half`, the pixel plotted by iteration `k` (counted from 0) is
`k+1` steps along the major axis and `(half + (k+1)*B) / A` steps along the
minor axis. -/
theorem run_trace_getElem (A B sx sy : Int) (hB : 0 ≤ B) (hBA : B ≤ A) :
    ∀ (n : Nat) (half px py : Int), 0 ≤ half → half < A → ∀ k : Nat, k < n →
      (run_trace A B sx sy n half px py)[k]?
        = some (px + ((k : Int) + 1) * sx, py + ((half + ((k : Int) + 1) * B) / A) * sy) := by
  intro n
  induction n with
  | zero => intro half px py _ _ k hk; omega
  | succ n ih =>
    intro half px py h0 h1 k hk
    have hA : 0 < A := by omega
    by_cases hstep : half + B ≥ A
    · have hq : ∀ j : Int, (half + B - A + j * B) / A = (half + (j + 1) * B) / A - 1 := by
        intro j
        have := Int.add_mul_ediv_right (half + (j + 1) * B) (-1) (ne_of_gt hA)
        have e : half + B - A + j * B = half + (j + 1) * B + -1 * A := by ring
        rw [e, this]; ring
      cases k with
      | zero =>
        have h1' : (half + B) / A = 1 := by
          have := hq 0
          have hz : (half + B - A + 0 * B) / A = 0 :=
            Int.ediv_eq_zero_of_lt (by omega) (by omega)
          rw [hz] at this
          have e : half + (0 + 1) * B = half + B := by ring
          rw [e] at this; omega
        simp [run_trace, hstep, h1']
      | succ k =>
        have := ih (half + B - A) (px + sx) (py + sy) (by omega) (by omega) k (by omega)
        simp only [run_trace, hstep, decide_True, if_true, List.getElem?_cons_succ]
        rw [this, hq]
        simp only [Nat.cast_add, Nat.cast_one]
        congr 2 <;> ring
    · have hq : ∀ j : Int, (half + B + j * B) / A = (half + (j + 1) * B) / A := by
        intro j; congr 1; ring
      cases k with
      | zero =>
        have h0' : (half + B) / A = 0 := Int.ediv_eq_zero_of_lt (by omega) (by omega)
        simp [run_trace, hstep, h0']
      | succ k =>
        have := ih (half + B) (px + sx) py (by omega) (by omega) k (by omega)
        simp only [run_trace, hstep, decide_False, Bool.false_eq_true, if_false,
          List.getElem?_cons_succ]
        rw [this, hq]
        simp only [Nat.cast_add, Nat.cast_one]
        congr 2
        ring

theorem shiftRight_one (a : Int) : a >>> (1 : Nat) = a / 2 := by
  rw [Int.shiftRight_eq_div_pow]; norm_num

theorem half_ediv_self (A : Int) (hA : 0 ≤ A) : A / 2 / A = 0 := by
  rcases eq_or_lt_of_le hA with h | h
  · rw [← h]; rfl
  · exact Int.ediv_eq_zero_of_lt (by omega) (by omega)

theorem length_line_pixels (x y run rise : Int) :
    (line_pixels x y run rise).length = max run.natAbs rise.natAbs + 1 := by
  unfold line_pixels
  simp only [abs_eq_natAbs, List.length_cons]
  split
  · rename_i h
    have h' : rise.natAbs ≤ run.natAbs := by exact_mod_cast h
    rw [length_run_trace, Int.toNat_ofNat, max_eq_left h']
  · rename_i h
    have h' : run.natAbs ≤ rise.natAbs := by
      have : ¬ ((rise.natAbs : Int) ≤ run.natAbs) := h
      omega
    rw [List.length_map, length_run_trace, Int.toNat_ofNat, max_eq_right h']

/-- The `k`-th pixel of a line that is at least as wide as it is high. -/
theorem line_pixels_getElem_run (x y run rise : Int) (h : rise.natAbs ≤ run.natAbs)
    (k : Nat) (hk : k ≤ run.natAbs) :
    (line_pixels x y run rise)[k]?
      = some (x + (k : Int) * int_sign run,
          y + (((run.natAbs : Int) / 2 + (k : Int) * (rise.natAbs : Int)) / (run.natAbs : Int))
            * int_sign rise) := by
  unfold line_pixels
  simp only [abs_eq_natAbs, shiftRight_one]
  have h' : (run.natAbs : Int) ≥ (rise.natAbs : Int) := by exact_mod_cast h
  rw [if_pos h']
  cases k with
  | zero =>
    simp [half_ediv_self]
  | succ k =>
    have hA : (0 : Int) < run.natAbs := by omega
    rw [List.getElem?_cons_succ, Int.toNat_ofNat,
      run_trace_getElem _ _ _ _ (by omega) h' _ _ _ _ (by omega) (by omega) k (by omega)]
    simp only [Nat.cast_add, Nat.cast_one]

/-- The `k`-th pixel of a line that is higher than it is wide. -/
theorem line_pixels_getElem_rise (x y run rise : Int) (h : run.natAbs < rise.natAbs)
    (k : Nat) (hk : k ≤ rise.natAbs) :
    (line_pixels x y run rise)[k]?
      = some (x + (((rise.natAbs : Int) / 2 + (k : Int) * (run.natAbs : Int))
            / (rise.natAbs : Int)) * int_sign run,
          y + (k : Int) * int_sign rise) := by
  unfold line_pixels
  simp only [abs_eq_natAbs, shiftRight_one]
  have h' : ¬ (run.natAbs : Int) ≥ (rise.natAbs : Int) := by omega
  rw [if_neg h']
  cases k with
  | zero =>
    simp [half_ediv_self]
  | succ k =>
    have hA : (0 : Int) < rise.natAbs := by omega
    rw [List.getElem?_cons_succ, Int.toNat_ofNat, List.getElem?_map,
      run_trace_getElem _ _ _ _ (by omega) (by omega) _ _ _ _ (by omega) (by omega) k (by omega)]
    simp only [Nat.cast_add, Nat.cast_one, Option.map_some', Prod.swap_prod_mk]

/-- At the last step the accumulated minor offset is the whole minor delta. -/
theorem minor_at_end (A B : Int) (hA : 0 < A) : (A / 2 + A * B) / A = B := by
  rw [Int.add_mul_ediv_left _ _ (ne_of_gt hA), half_ediv_self A hA.le, zero_add]

/-- C4: the pixels plotted by `vgahlpr_draw_line(x, y, run, rise, color)` start
with `(x, y)` and end with `(x+run, y+rise)`. -/
theorem draw_line_joins_endpoints (x y run rise : Int) (color : byte) (s : Machine) :
    ∃ L, (vgahlpr_draw_line x y run rise color s).plotted = s.plotted ++ L ∧
      L.head? = some (x, y) ∧ L.getLast? = some (x + run, y + rise) := by
  refine ⟨line_pixels x y run rise, ?_, ?_, ?_⟩
  · rw [vgahlpr_draw_line_eq, plots_plotted]
  · simp [line_pixels]
  · rw [List.getLast?_eq_getElem?, length_line_pixels, Nat.add_sub_cancel]
    by_cases h : rise.natAbs ≤ run.natAbs
    · rw [max_eq_left h, line_pixels_getElem_run x y run rise h _ (le_refl _),
        natAbs_mul_int_sign]
      by_cases h0 : run = 0
      · have : rise = 0 := by subst h0; simpa using h
        subst h0; subst this; simp
      · rw [minor_at_end _ _ (by omega), natAbs_mul_int_sign]
    · have h' : run.natAbs < rise.natAbs := by omega
      rw [max_eq_right h'.le, line_pixels_getElem_rise x y run rise h' _ (le_refl _),
        natAbs_mul_int_sign, minor_at_end _ _ (by omega), natAbs_mul_int_sign]

theorem int_sign_neg_arg (r : Int) : int_sign (-r) = -int_sign r := by
  rcases lt_trichotomy r 0 with h | h | h
  · rw [int_sign_neg h, int_sign_pos (by omega)]; rfl
  · subst h; rfl
  · rw [int_sign_pos h, int_sign_neg (by omega)]

theorem natAbs_int_sign_le (r : Int) : (int_sign r).natAbs ≤ 1 := by
  rcases lt_trichotomy r 0 with h | h | h
  · rw [int_sign_neg h]; decide
  · subst h; decide
  · rw [int_sign_pos h]; decide

theorem nodup_line_pixels (x y run rise : Int) : (line_pixels x y run rise).Nodup := by
  rw [List.nodup_iff_getElem?_ne_getElem?]
  intro i j hij hj
  rw [length_line_pixels] at hj
  by_cases h : rise.natAbs ≤ run.natAbs
  · rw [max_eq_left h] at hj
    rw [line_pixels_getElem_run x y run rise h i (by omega),
      line_pixels_getElem_run x y run rise h j (by omega)]
    intro e
    simp only [Option.some.injEq, Prod.mk.injEq] at e
    have hs : int_sign run ≠ 0 := int_sign_ne_zero (by omega)
    have e1 : (i : Int) * int_sign run = (j : Int) * int_sign run := by omega
    have := mul_right_cancel₀ hs e1
    omega
  · have h' : run.natAbs < rise.natAbs := by omega
    rw [max_eq_right h'.le] at hj
    rw [line_pixels_getElem_rise x y run rise h' i (by omega),
      line_pixels_getElem_rise x y run rise h' j (by omega)]
    intro e
    simp only [Option.some.injEq, Prod.mk.injEq] at e
    have hs : int_sign rise ≠ 0 := int_sign_ne_zero (by omega)
    have e1 : (i : Int) * int_sign rise = (j : Int) * int_sign rise := by omega
    have := mul_right_cancel₀ hs e1
    omega

/-- The minor offsets of the `k`-th pixel of a line and of the pixel of the
reversed line over the same major coordinate add up to the minor delta, or to
one more; the latter only at a tie, where the ideal line passes half way
between two pixels. -/
theorem reversal_arith (A B k : Int) (hA : 0 < A) :
    0 ≤ (A / 2 + k * B) / A + (A / 2 + (A - k) * B) / A - B ∧
      (A / 2 + k * B) / A + (A / 2 + (A - k) * B) / A - B ≤ 1 ∧
      ((A / 2 + k * B) / A + (A / 2 + (A - k) * B) / A - B = 1 →
        (2 * k * B) % (2 * A) = A) := by
  have hp := Int.ediv_add_emod (A / 2 + k * B) A
  have hq := Int.ediv_add_emod (A / 2 + (A - k) * B) A
  have hp0 := Int.emod_nonneg (A / 2 + k * B) (ne_of_gt hA)
  have hp1 := Int.emod_lt_of_pos (A / 2 + k * B) hA
  have hq0 := Int.emod_nonneg (A / 2 + (A - k) * B) (ne_of_gt hA)
  have hq1 := Int.emod_lt_of_pos (A / 2 + (A - k) * B) hA
  generalize (A / 2 + k * B) / A = p at *
  generalize (A / 2 + (A - k) * B) / A = q at *
  generalize (A / 2 + k * B) % A = e at *
  generalize (A / 2 + (A - k) * B) % A = f at *
  have hh : A - 1 ≤ 2 * (A / 2) ∧ 2 * (A / 2) ≤ A := by omega
  have key : A * (p + q - B) = 2 * (A / 2) - (e + f) := by
    have : A * p + e + (A * q + f) = A / 2 + k * B + (A / 2 + (A - k) * B) := by
      rw [hp, hq]
    linear_combination this
  refine ⟨?_, ?_, ?_⟩
  · by_contra hneg
    have h1 : p + q - B ≤ -1 := by omega
    have : A * (p + q - B) ≤ A * (-1) := mul_le_mul_of_nonneg_left h1 hA.le
    omega
  · by_contra hneg
    have h1 : 2 ≤ p + q - B := by omega
    have : A * 2 ≤ A * (p + q - B) := mul_le_mul_of_nonneg_left h1 hA.le
    omega
  · intro h1
    rw [h1] at key
    have he : e = 0 := by omega
    have h2 : 2 * (A / 2) = A := by omega
    have e1 : 2 * k * B = A + 2 * A * (p - 1) := by
      have : A * p = A / 2 + k * B := by rw [← hp, he]; ring
      linear_combination (-2 : Int) * this - h2
    rw [e1, Int.add_mul_emod_self_left]
    exact Int.emod_eq_of_lt hA.le (by omega)

/-- The `k`-th pixel of a line at least as wide as high, and the pixel of the
reversed line over the same column. -/
theorem line_reverse_run (x y run rise : Int) (h : rise.natAbs ≤ run.natAbs)
    (k : Nat) (hkA : k ≤ run.natAbs) :
    ∃ p q, (line_pixels x y run rise)[k]? = some p ∧
      (line_pixels (x + run) (y + rise) (-run) (-rise))[run.natAbs - k]? = some q ∧
      q.1 = p.1 ∧ (q.2 - p.2).natAbs ≤ 1 ∧
      (q ≠ p → (2 * (k : Int) * rise.natAbs) % (2 * run.natAbs) = run.natAbs) := by
  have hq := line_pixels_getElem_run (x + run) (y + rise) (-run) (-rise)
    (by simpa using h) (run.natAbs - k) (by simp)
  simp only [Int.natAbs_neg, int_sign_neg_arg, Nat.cast_sub hkA] at hq
  refine ⟨_, _, line_pixels_getElem_run x y run rise h k hkA, hq, ?_⟩
  by_cases h0 : run = 0
  · have hr : rise = 0 := by subst h0; simpa using h
    subst h0; subst hr
    simp [int_sign_zero]
  · have hs := natAbs_mul_int_sign run
    have ht := natAbs_mul_int_sign rise
    have har := reversal_arith run.natAbs rise.natAbs k (by omega)
    generalize ((run.natAbs : Int) / 2 + (k : Int) * rise.natAbs) / run.natAbs = m at *
    generalize ((run.natAbs : Int) / 2 + ((run.natAbs : Int) - k) * rise.natAbs)
      / run.natAbs = m' at *
    have e1 : x + run + ((run.natAbs : Int) - k) * -int_sign run
        = x + (k : Int) * int_sign run := by
      linear_combination (-1 : Int) * hs
    have e2 : y + rise + m' * -int_sign rise - (y + m * int_sign rise)
        = -(m + m' - rise.natAbs) * int_sign rise := by
      linear_combination (-1 : Int) * ht
    refine ⟨e1, ?_, ?_⟩
    · show (y + rise + m' * -int_sign rise - (y + m * int_sign rise)).natAbs ≤ 1
      rw [e2, Int.natAbs_mul]
      have h1 : (-(m + m' - (rise.natAbs : Int))).natAbs ≤ 1 := by omega
      exact Nat.mul_le_mul h1 (natAbs_int_sign_le rise)
    · intro hne
      apply har.2.2
      by_contra hd
      have hd0 : m + m' - (rise.natAbs : Int) = 0 := by omega
      apply hne
      rw [hd0, neg_zero, zero_mul] at e2
      rw [Prod.mk.injEq]
      exact ⟨e1, by omega⟩

/-- The `k`-th pixel of a line higher than wide, and the pixel of the reversed
line over the same row. -/
theorem line_reverse_rise (x y run rise : Int) (h : run.natAbs < rise.natAbs)
    (k : Nat) (hkA : k ≤ rise.natAbs) :
    ∃ p q, (line_pixels x y run rise)[k]? = some p ∧
      (line_pixels (x + run) (y + rise) (-run) (-rise))[rise.natAbs - k]? = some q ∧
      q.2 = p.2 ∧ (q.1 - p.1).natAbs ≤ 1 ∧
      (q ≠ p → (2 * (k : Int) * run.natAbs) % (2 * rise.natAbs) = rise.natAbs) := by
  have hq := line_pixels_getElem_rise (x + run) (y + rise) (-run) (-rise)
    (by simpa using h) (rise.natAbs - k) (by simp)
  simp only [Int.natAbs_neg, int_sign_neg_arg, Nat.cast_sub hkA] at hq
  refine ⟨_, _, line_pixels_getElem_rise x y run rise h k hkA, hq, ?_⟩
  have hs := natAbs_mul_int_sign run
  have ht := natAbs_mul_int_sign rise
  have har := reversal_arith rise.natAbs run.natAbs k (by omega)
  generalize ((rise.natAbs : Int) / 2 + (k : Int) * run.natAbs) / rise.natAbs = m at *
  generalize ((rise.natAbs : Int) / 2 + ((rise.natAbs : Int) - k) * run.natAbs)
    / rise.natAbs = m' at *
  have e1 : y + rise + ((rise.natAbs : Int) - k) * -int_sign rise
      = y + (k : Int) * int_sign rise := by
    linear_combination (-1 : Int) * ht
  have e2 : x + run + m' * -int_sign run - (x + m * int_sign run)
      = -(m + m' - run.natAbs) * int_sign run := by
    linear_combination (-1 : Int) * hs
  refine ⟨e1, ?_, ?_⟩
  · show (x + run + m' * -int_sign run - (x + m * int_sign run)).natAbs ≤ 1
    rw [e2, Int.natAbs_mul]
    have h1 : (-(m + m' - (run.natAbs : Int))).natAbs ≤ 1 := by omega
    exact Nat.mul_le_mul h1 (natAbs_int_sign_le run)
  · intro hne
    apply har.2.2
    by_contra hd
    have hd0 : m + m' - (run.natAbs : Int) = 0 := by omega
    apply hne
    rw [hd0, neg_zero, zero_mul] at e2
    rw [Prod.mk.injEq]
    exact ⟨by omega, e1⟩

/-- Every pixel of a line has a pixel of the reversed line over the same major
coordinate, at most one pixel away along the minor axis. -/
theorem line_reverse_near (x y run rise : Int) :
    ∀ p ∈ line_pixels x y run rise,
      ∃ q ∈ line_pixels (x + run) (y + rise) (-run) (-rise),
        (rise.natAbs ≤ run.natAbs → q.1 = p.1 ∧ (q.2 - p.2).natAbs ≤ 1) ∧
        (run.natAbs < rise.natAbs → q.2 = p.2 ∧ (q.1 - p.1).natAbs ≤ 1) := by
  intro p hp
  obtain ⟨k, hk⟩ := List.mem_iff_getElem?.1 hp
  have hlen : k < (line_pixels x y run rise).length := by
    obtain ⟨h, -⟩ := List.getElem?_eq_some.1 hk
    exact h
  rw [length_line_pixels] at hlen
  by_cases h : rise.natAbs ≤ run.natAbs
  · rw [max_eq_left h] at hlen
    obtain ⟨p', q, hp', hq, h1, h2, -⟩ := line_reverse_run x y run rise h k (by omega)
    have : p' = p := Option.some.inj (hp'.symm.trans hk)
    subst this
    exact ⟨q, List.mem_iff_getElem?.2 ⟨_, hq⟩, fun _ => ⟨h1, h2⟩, fun h' => absurd h' (by omega)⟩
  · have h' : run.natAbs < rise.natAbs := by omega
    rw [max_eq_right h'.le] at hlen
    obtain ⟨p', q, hp', hq, h1, h2, -⟩ := line_reverse_rise x y run rise h' k (by omega)
    have : p' = p := Option.some.inj (hp'.symm.trans hk)
    subst this
    exact ⟨q, List.mem_iff_getElem?.2 ⟨_, hq⟩, fun h'' => absurd h'' h, fun _ => ⟨h1, h2⟩⟩

/-- Pixels of a line and of its reversal over the same major coordinate
coincide except at a tie. -/
theorem line_reverse_tie (x y run rise : Int) (k : Nat)
    (hk : k ≤ max run.natAbs rise.natAbs) :
    ∃ p q, (line_pixels x y run rise)[k]? = some p ∧
      (line_pixels (x + run) (y + rise) (-run) (-rise))[max run.natAbs rise.natAbs - k]?
        = some q ∧
      (q = p ∨ (2 * (k : Int) * (min run.natAbs rise.natAbs : Nat))
        % (2 * (max run.natAbs rise.natAbs : Nat)) = (max run.natAbs rise.natAbs : Nat)) := by
  by_cases h : rise.natAbs ≤ run.natAbs
  · rw [max_eq_left h, min_eq_right h] at *
    obtain ⟨p, q, hp, hq, -, -, h3⟩ := line_reverse_run x y run rise h k hk
    refine ⟨p, q, hp, hq, ?_⟩
    by_cases e : q = p
    · exact Or.inl e
    · exact Or.inr (h3 e)
  · have h' : run.natAbs < rise.natAbs := by omega
    rw [max_eq_right h'.le, min_eq_left h'.le] at *
    obtain ⟨p, q, hp, hq, -, -, h3⟩ := line_reverse_rise x y run rise h' k hk
    refine ⟨p, q, hp, hq, ?_⟩
    by_cases e : q = p
    · exact Or.inl e
    · exact Or.inr (h3 e)

/-- C5: the pixels `F` plotted by `vgahlpr_draw_line(x, y, run, rise, c)` and the
pixels `R` plotted by the reversed call
`vgahlpr_draw_line(x+run, y+rise, -run, -rise, c)` are each
`max(|run|,|rise|)+1` distinct pixels, and they agree up to one pixel along the
minor axis: every pixel of `F` has a pixel of `R` with the same major
coordinate and a minor coordinate at most 1 away, and conversely.  The `k`-th
pixel of `F` and the pixel of `R` over the same major coordinate are the same
pixel unless step `k` is a tie, the ideal line passing half way between two
pixels there (`2*k*min(|run|,|rise|) mod 2*max(|run|,|rise|) = max(|run|,|rise|)`). -/
theorem draw_line_reversal (x y run rise : Int) (color : byte) (s : Machine) :
    ∃ F R, (vgahlpr_draw_line x y run rise color s).plotted = s.plotted ++ F ∧
      (vgahlpr_draw_line (x + run) (y + rise) (-run) (-rise) color s).plotted
        = s.plotted ++ R ∧
      F.length = max run.natAbs rise.natAbs + 1 ∧ F.Nodup ∧
      R.length = max run.natAbs rise.natAbs + 1 ∧ R.Nodup ∧
      (∀ p ∈ F, ∃ q ∈ R,
        (rise.natAbs ≤ run.natAbs → q.1 = p.1 ∧ (q.2 - p.2).natAbs ≤ 1) ∧
        (run.natAbs < rise.natAbs → q.2 = p.2 ∧ (q.1 - p.1).natAbs ≤ 1)) ∧
      (∀ q ∈ R, ∃ p ∈ F,
        (rise.natAbs ≤ run.natAbs → p.1 = q.1 ∧ (p.2 - q.2).natAbs ≤ 1) ∧
        (run.natAbs < rise.natAbs → p.2 = q.2 ∧ (p.1 - q.1).natAbs ≤ 1)) ∧
      (∀ k : Nat, k ≤ max run.natAbs rise.natAbs →
        ∃ p q, F[k]? = some p ∧ R[max run.natAbs rise.natAbs - k]? = some q ∧
          (q = p ∨ (2 * (k : Int) * (min run.natAbs rise.natAbs : Nat))
            % (2 * (max run.natAbs rise.natAbs : Nat))
              = (max run.natAbs rise.natAbs : Nat))) := by
  refine ⟨line_pixels x y run rise, line_pixels (x + run) (y + rise) (-run) (-rise),
    ?_, ?_, length_line_pixels _ _ _ _, nodup_line_pixels _ _ _ _, ?_,
    nodup_line_pixels _ _ _ _, line_reverse_near x y run rise, ?_,
    line_reverse_tie x y run rise⟩
  · rw [vgahlpr_draw_line_eq, plots_plotted]
  · rw [vgahlpr_draw_line_eq, plots_plotted]
  · rw [length_line_pixels, Int.natAbs_neg, Int.natAbs_neg]
  · intro q hq
    have := line_reverse_near (x + run) (y + rise) (-run) (-rise) q hq
    simpa only [neg_neg, add_neg_cancel_right, Int.natAbs_neg] using this

theorem plots_VGA_congr (c : byte) (L M : List (Int × Int)) (s : Machine)
    (h : ∀ p, p ∈ L ↔ p ∈ M) : (plots c L s).VGA = (plots c M s).VGA := by
  funext a
  rw [plots_VGA, plots_VGA]
  have : (∃ p ∈ L, a = pixel_offset p.1 p.2) ↔ (∃ p ∈ M, a = pixel_offset p.1 p.2) := by
    constructor
    · rintro ⟨p, hp, e⟩; exact ⟨p, (h p).1 hp, e⟩
    · rintro ⟨p, hp, e⟩; exact ⟨p, (h p).2 hp, e⟩
  simp only [this]

/-- The pixels of a line with `rise = 0`, in order. -/
theorem line_pixels_flat (x y run : Int) :
    line_pixels x y run 0
      = (List.range (run.natAbs + 1)).map (fun (k : Nat) => (x + (k : Int) * int_sign run, y)) := by
  apply List.ext_getElem?
  intro n
  by_cases hn : n ≤ run.natAbs
  · rw [line_pixels_getElem_run x y run 0 (by simp) n hn, List.getElem?_map,
      List.getElem?_range (by omega)]
    simp [int_sign_zero]
  · rw [List.getElem?_eq_none (by rw [length_line_pixels]; simp; omega),
      List.getElem?_eq_none (by simp; omega)]

theorem mem_range_steps (r v : Int) :
    (∃ k : Nat, k < r.natAbs + 1 ∧ (k : Int) * int_sign r = v) ↔ v ∈ offsets r := by
  unfold offsets
  rw [List.mem_cons, mem_countdown]
  constructor
  · rintro ⟨k, hk, rfl⟩
    by_cases h0 : k = 0
    · left; simp [h0]
    · right; exact ⟨k, by omega, by omega, rfl⟩
  · rintro (h | ⟨j, h1, h2, h3⟩)
    · exact ⟨0, by omega, by simp [h]⟩
    · exact ⟨j, by omega, h3.symm⟩

/-- C6: `vgahlpr_draw_line(x, y, run, 0, color)` plots the row `(x, y)`, ...,
`(x+run, y)` in that order, one pixel per step of `sign(run)`, and leaves the
same memory as `vgahlpr_draw_hline(x, y, run, color)`; from `(0,0)` with
`run = 5` the pixels are `(0,0),(1,0),(2,0),(3,0),(4,0),(5,0)`. -/
theorem draw_line_flat_is_hline (x y run : Int) (color : byte) (s : Machine) (fuel : Nat)
    (hfuel : run.natAbs < fuel) :
    (vgahlpr_draw_line x y run 0 color s).plotted
        = s.plotted
          ++ (List.range (run.natAbs + 1)).map (fun (k : Nat) => (x + (k : Int) * int_sign run, y)) ∧
      (∃ s', vgahlpr_draw_hline fuel x y run color s = some s' ∧
        s'.VGA = (vgahlpr_draw_line x y run 0 color s).VGA) ∧
      (vgahlpr_draw_line 0 0 5 0 color s).plotted
        = s.plotted ++ [(0, 0), (1, 0), (2, 0), (3, 0), (4, 0), (5, 0)] := by
  refine ⟨?_, ⟨_, vgahlpr_draw_hline_eq fuel x y run color s hfuel, ?_⟩, ?_⟩
  · rw [vgahlpr_draw_line_eq, plots_plotted, line_pixels_flat]
  · rw [vgahlpr_draw_line_eq]
    apply plots_VGA_congr
    rintro ⟨px, py⟩
    rw [line_pixels_flat, hline_pixels]
    simp only [List.mem_map, List.mem_range, Prod.mk.injEq]
    constructor
    · rintro ⟨i, hi, rfl, rfl⟩
      obtain ⟨j, hj, e⟩ := (mem_range_steps run i).2 hi
      exact ⟨j, hj, by rw [e], rfl⟩
    · rintro ⟨k, hk, rfl, rfl⟩
      exact ⟨_, (mem_range_steps run _).1 ⟨k, hk, rfl⟩, rfl, rfl⟩
  · rw [vgahlpr_draw_line_eq, plots_plotted]
    rfl

/-- Witness of C6: the run of 5 from `(0, 0)`. -/
theorem draw_line_flat_is_hline_witness :
    (vgahlpr_draw_line 0 0 5 0 7 blank).plotted
        = [(0, 0), (1, 0), (2, 0), (3, 0), (4, 0), (5, 0)] ∧
      ∃ s', vgahlpr_draw_hline 6 0 0 5 7 blank = some s' ∧
        s'.VGA = (vgahlpr_draw_line 0 0 5 0 7 blank).VGA := by
  obtain ⟨-, h2, h3⟩ := draw_line_flat_is_hline 0 0 5 7 blank 6 (by decide)
  exact ⟨h3, h2⟩

/-! ## Rectangles -/

theorem vgahlpr_draw_rectangle_eq (fuel : Nat) (x y run rise : Int) (c : byte) (s : Machine)
    (hf1 : run.natAbs < fuel) (hf2 : rise.natAbs < fuel) :
    vgahlpr_draw_rectangle fuel x y run rise c s
      = some (plots c (rectangle_pixels x y run rise) s) := by
  simp only [vgahlpr_draw_rectangle, vgahlpr_draw_hline_eq _ _ _ _ _ _ hf1,
    vgahlpr_draw_vline_eq _ _ _ _ _ _ hf2, Option.bind_eq_bind, Option.some_bind,
    rectangle_pixels, plots_append]

theorem vgahlpr_draw_filled_rectangle_eq (fuel : Nat) (x y run rise : Int) (c : byte)
    (s : Machine) (hf1 : run.natAbs < fuel) (hf2 : rise.natAbs < fuel) :
    vgahlpr_draw_filled_rectangle fuel x y run rise c s
      = some (plots c (filled_rectangle_pixels x y run rise) s) := by
  have h := start_then_while (fun i s => vgahlpr_draw_vline fuel (x + i) y rise c s) c
    (fun i => vline_pixels (x + i) y rise)
    (fun i s => vgahlpr_draw_vline_eq fuel (x + i) y rise c s hf2) run fuel hf1 s
  simp only [add_zero] at h
  unfold vgahlpr_draw_filled_rectangle
  rw [vgahlpr_draw_vline_eq _ _ _ _ _ _ hf2]
  simp only [Option.bind_eq_bind, Option.some_bind]
  rw [h, filled_rectangle_pixels]

theorem mem_rectangle_pixels (x y run rise px py : Int) :
    (px, py) ∈ rectangle_pixels x y run rise ↔
      (min x (x + run) ≤ px ∧ px ≤ max x (x + run)) ∧
      (min y (y + rise) ≤ py ∧ py ≤ max y (y + rise)) ∧
      (px = x ∨ px = x + run ∨ py = y ∨ py = y + rise) := by
  simp only [rectangle_pixels, List.mem_append, mem_hline_pixels, mem_vline_pixels]
  constructor
  · rintro (((h | h) | h) | h)
    · obtain ⟨rfl, h1, h2⟩ := h
      exact ⟨⟨h1, h2⟩, ⟨by omega, by omega⟩, Or.inr (Or.inr (Or.inl rfl))⟩
    · obtain ⟨rfl, h1, h2⟩ := h
      exact ⟨⟨h1, h2⟩, ⟨by omega, by omega⟩, Or.inr (Or.inr (Or.inr rfl))⟩
    · obtain ⟨rfl, h1, h2⟩ := h
      exact ⟨⟨by omega, by omega⟩, ⟨h1, h2⟩, Or.inl rfl⟩
    · obtain ⟨rfl, h1, h2⟩ := h
      exact ⟨⟨by omega, by omega⟩, ⟨h1, h2⟩, Or.inr (Or.inl rfl)⟩
  · rintro ⟨hx, hy, h | h | h | h⟩
    · exact Or.inl (Or.inr ⟨h, hy⟩)
    · exact Or.inr ⟨h, hy⟩
    · exact Or.inl (Or.inl (Or.inl ⟨h, hx⟩))
    · exact Or.inl (Or.inl (Or.inr ⟨h, hx⟩))

theorem mem_filled_rectangle_pixels (x y run rise px py : Int) :
    (px, py) ∈ filled_rectangle_pixels x y run rise ↔
      (min x (x + run) ≤ px ∧ px ≤ max x (x + run)) ∧
      (min y (y + rise) ≤ py ∧ py ≤ max y (y + rise)) := by
  simp only [filled_rectangle_pixels, List.mem_flatMap, mem_offsets, mem_vline_pixels]
  constructor
  · rintro ⟨i, ⟨h1, h2⟩, rfl, hy⟩
    exact ⟨⟨by omega, by omega⟩, hy⟩
  · rintro ⟨⟨h1, h2⟩, hy⟩
    exact ⟨px - x, ⟨by omega, by omega⟩, by omega, hy⟩

theorem length_filled_rectangle_pixels (x y run rise : Int) :
    (filled_rectangle_pixels x y run rise).length = (run.natAbs + 1) * (rise.natAbs + 1) := by
  unfold filled_rectangle_pixels
  have : ∀ L : List Int, (L.flatMap (fun i => vline_pixels (x + i) y rise)).length
      = L.length * (rise.natAbs + 1) := by
    intro L
    induction L with
    | nil => simp
    | cons a L ih =>
      rw [List.flatMap_cons, List.length_append, ih, length_vline_pixels, List.length_cons]
      ring
  rw [this, length_offsets]

theorem nodup_filled_rectangle_pixels (x y run rise : Int) :
    (filled_rectangle_pixels x y run rise).Nodup := by
  unfold filled_rectangle_pixels
  rw [List.nodup_flatMap]
  refine ⟨fun i _ => nodup_vline_pixels _ _ _, ?_⟩
  refine (nodup_offsets run).imp ?_
  intro a b hab
  simp only [Function.onFun]
  rw [List.disjoint_left]
  rintro ⟨px, py⟩ h1 h2
  rw [mem_vline_pixels] at h1 h2
  exact hab (by omega)

theorem box_on_screen (x y run rise px py : Int) (hx : 0 ≤ x ∧ x < 320)
    (hxr : 0 ≤ x + run ∧ x + run < 320) (hy : 0 ≤ y ∧ y < 200)
    (hyr : 0 ≤ y + rise ∧ y + rise < 200)
    (hpx : min x (x + run) ≤ px ∧ px ≤ max x (x + run))
    (hpy : min y (y + rise) ≤ py ∧ py ≤ max y (y + rise)) : on_screen px py := by
  rw [on_screen_iff]
  omega

/-- C7: when the box spanned by `(x, y)` and `(x+run, y+rise)` is on screen,
`vgahlpr_draw_rectangle(x, y, run, rise, c)` returns and the pixels it plots are
exactly the pixels of the box whose column is `x` or `x+run` or whose row is `y`
or `y+rise`; afterwards these read `c`, every other on-screen pixel (the
interior included) reads what it read before, and memory outside the
framebuffer is unchanged.  With `run = 0` the pixels are one column, with
`rise = 0` one row. -/
theorem draw_rectangle_exact (x y run rise : Int) (color : byte) (s : Machine) (fuel : Nat)
    (hx : 0 ≤ x ∧ x < 320) (hxr : 0 ≤ x + run ∧ x + run < 320)
    (hy : 0 ≤ y ∧ y < 200) (hyr : 0 ≤ y + rise ∧ y + rise < 200)
    (hf1 : run.natAbs < fuel) (hf2 : rise.natAbs < fuel) :
    ∃ s' L, vgahlpr_draw_rectangle fuel x y run rise color s = some s' ∧
      s'.plotted = s.plotted ++ L ∧
      (∀ px py, (px, py) ∈ L ↔
        (min x (x + run) ≤ px ∧ px ≤ max x (x + run)) ∧
        (min y (y + rise) ≤ py ∧ py ≤ max y (y + rise)) ∧
        (px = x ∨ px = x + run ∨ py = y ∨ py = y + rise)) ∧
      (∀ px py, 0 ≤ px ∧ px < 320 → 0 ≤ py ∧ py < 200 →
        vgahlpr_read_pixel px py s' =
          if (min x (x + run) ≤ px ∧ px ≤ max x (x + run)) ∧
              (min y (y + rise) ≤ py ∧ py ≤ max y (y + rise)) ∧
              (px = x ∨ px = x + run ∨ py = y ∨ py = y + rise) then color
          else vgahlpr_read_pixel px py s) ∧
      (∀ a, a < 0 ∨ 64000 ≤ a → s'.VGA a = s.VGA a) ∧
      (run = 0 → ∀ px py, (px, py) ∈ L ↔
        px = x ∧ min y (y + rise) ≤ py ∧ py ≤ max y (y + rise)) ∧
      (rise = 0 → ∀ px py, (px, py) ∈ L ↔
        py = y ∧ min x (x + run) ≤ px ∧ px ≤ max x (x + run)) := by
  have hon : ∀ p ∈ rectangle_pixels x y run rise, on_screen p.1 p.2 := by
    rintro ⟨px, py⟩ hp
    rw [mem_rectangle_pixels] at hp
    exact box_on_screen x y run rise px py hx hxr hy hyr hp.1 hp.2.1
  refine ⟨_, rectangle_pixels x y run rise,
    vgahlpr_draw_rectangle_eq fuel x y run rise color s hf1 hf2, plots_plotted _ _ _,
    mem_rectangle_pixels x y run rise, ?_, plots_outside _ _ _ hon, ?_, ?_⟩
  · intro px py hpx hpy
    rw [plots_read _ _ _ hon px py ((on_screen_iff px py).2 ⟨hpx, hpy⟩)]
    simp only [mem_rectangle_pixels]
  · rintro rfl px py
    rw [mem_rectangle_pixels]
    constructor
    · rintro ⟨h1, h2, -⟩
      exact ⟨by omega, h2⟩
    · rintro ⟨rfl, h2⟩
      exact ⟨by omega, h2, Or.inl rfl⟩
  · rintro rfl px py
    rw [mem_rectangle_pixels]
    constructor
    · rintro ⟨h1, h2, -⟩
      exact ⟨by omega, h1⟩
    · rintro ⟨rfl, h2⟩
      exact ⟨h2, by omega, Or.inr (Or.inr (Or.inl rfl))⟩

/-- Witness of C7: the outline of the 5x4 box at the origin; corners and edges
are set, the interior is not. -/
theorem draw_rectangle_exact_witness :
    ∃ s', vgahlpr_draw_rectangle 5 0 0 4 3 7 blank = some s' ∧
      vgahlpr_read_pixel 0 0 s' = 7 ∧ vgahlpr_read_pixel 4 3 s' = 7 ∧
      vgahlpr_read_pixel 2 0 s' = 7 ∧ vgahlpr_read_pixel 4 1 s' = 7 ∧
      vgahlpr_read_pixel 1 1 s' = 0 ∧ vgahlpr_read_pixel 3 2 s' = 0 ∧
      vgahlpr_read_pixel 5 0 s' = 0 := by
  obtain ⟨s', L, h1, -, -, h4, -⟩ :=
    draw_rectangle_exact 0 0 4 3 7 blank 5 (by decide) (by decide) (by decide) (by decide)
      (by decide) (by decide)
  refine ⟨s', h1, ?_, ?_, ?_, ?_, ?_, ?_, ?_⟩
  · rw [h4 0 0 (by decide) (by decide)]; rfl
  · rw [h4 4 3 (by decide) (by decide)]; rfl
  · rw [h4 2 0 (by decide) (by decide)]; rfl
  · rw [h4 4 1 (by decide) (by decide)]; rfl
  · rw [h4 1 1 (by decide) (by decide)]; rfl
  · rw [h4 3 2 (by decide) (by decide)]; rfl
  · rw [h4 5 0 (by decide) (by decide)]; rfl

/-- C8: when the box spanned by `(x, y)` and `(x+run, y+rise)` is on screen,
`vgahlpr_draw_filled_rectangle(x, y, run, rise, c)` returns and plots each pixel
of the box exactly once, `(|run|+1)*(|rise|+1)` pixels in all, whatever the
signs of `run` and `rise`; afterwards every pixel of the box reads `c`, every
on-screen pixel outside the box reads what it read before, and memory outside
the framebuffer is unchanged. -/
theorem draw_filled_rectangle_exact (x y run rise : Int) (color : byte) (s : Machine)
    (fuel : Nat) (hx : 0 ≤ x ∧ x < 320) (hxr : 0 ≤ x + run ∧ x + run < 320)
    (hy : 0 ≤ y ∧ y < 200) (hyr : 0 ≤ y + rise ∧ y + rise < 200)
    (hf1 : run.natAbs < fuel) (hf2 : rise.natAbs < fuel) :
    ∃ s' L, vgahlpr_draw_filled_rectangle fuel x y run rise color s = some s' ∧
      s'.plotted = s.plotted ++ L ∧
      L.length = (run.natAbs + 1) * (rise.natAbs + 1) ∧ L.Nodup ∧
      (∀ px py, (px, py) ∈ L ↔
        (min x (x + run) ≤ px ∧ px ≤ max x (x + run)) ∧
        (min y (y + rise) ≤ py ∧ py ≤ max y (y + rise))) ∧
      (∀ px py, 0 ≤ px ∧ px < 320 → 0 ≤ py ∧ py < 200 →
        vgahlpr_read_pixel px py s' =
          if (min x (x + run) ≤ px ∧ px ≤ max x (x + run)) ∧
              (min y (y + rise) ≤ py ∧ py ≤ max y (y + rise)) then color
          else vgahlpr_read_pixel px py s) ∧
      (∀ a, a < 0 ∨ 64000 ≤ a → s'.VGA a = s.VGA a) := by
  have hon : ∀ p ∈ filled_rectangle_pixels x y run rise, on_screen p.1 p.2 := by
    rintro ⟨px, py⟩ hp
    rw [mem_filled_rectangle_pixels] at hp
    exact box_on_screen x y run rise px py hx hxr hy hyr hp.1 hp.2
  refine ⟨_, filled_rectangle_pixels x y run rise,
    vgahlpr_draw_filled_rectangle_eq fuel x y run rise color s hf1 hf2, plots_plotted _ _ _,
    length_filled_rectangle_pixels x y run rise, nodup_filled_rectangle_pixels x y run rise,
    mem_filled_rectangle_pixels x y run rise, ?_, plots_outside _ _ _ hon⟩
  intro px py hpx hpy
  rw [plots_read _ _ _ hon px py ((on_screen_iff px py).2 ⟨hpx, hpy⟩)]
  simp only [mem_filled_rectangle_pixels]

/-- Witness of C8: the 5x4 box at the origin is 20 pixels, interior included. -/
theorem draw_filled_rectangle_exact_witness :
    ∃ s', vgahlpr_draw_filled_rectangle 5 0 0 4 3 7 blank = some s' ∧
      s'.plotted.length = 20 ∧
      vgahlpr_read_pixel 0 0 s' = 7 ∧ vgahlpr_read_pixel 4 3 s' = 7 ∧
      vgahlpr_read_pixel 1 1 s' = 7 ∧ vgahlpr_read_pixel 3 2 s' = 7 ∧
      vgahlpr_read_pixel 5 0 s' = 0 ∧ vgahlpr_read_pixel 0 4 s' = 0 := by
  obtain ⟨s', L, h1, h2, h3, -, -, h6, -⟩ :=
    draw_filled_rectangle_exact 0 0 4 3 7 blank 5 (by decide) (by decide) (by decide)
      (by decide) (by decide) (by decide)
  refine ⟨s', h1, ?_, ?_, ?_, ?_, ?_, ?_, ?_⟩
  · rw [h2, List.length_append, h3]; rfl
  · rw [h6 0 0 (by decide) (by decide)]; rfl
  · rw [h6 4 3 (by decide) (by decide)]; rfl
  · rw [h6 1 1 (by decide) (by decide)]; rfl
  · rw [h6 3 2 (by decide) (by decide)]; rfl
  · rw [h6 5 0 (by decide) (by decide)]; rfl
  · rw [h6 0 4 (by decide) (by decide)]; rfl

/-! ## The outlined rectangle -/

theorem natAbs_inset_le (r : Int) : (r - 2 * int_sign r).natAbs ≤ r.natAbs := by
  rcases lt_trichotomy r 0 with h | h | h
  · rw [int_sign_neg h]; omega
  · subst h; decide
  · rw [int_sign_pos h]; omega

/-- The inset span lies inside the span it is inset from. -/
theorem inset_subset (v r p : Int)
    (h : min (v + int_sign r) (v + int_sign r + (r - 2 * int_sign r)) ≤ p ∧
      p ≤ max (v + int_sign r) (v + int_sign r + (r - 2 * int_sign r))) :
    min v (v + r) ≤ p ∧ p ≤ max v (v + r) := by
  rcases lt_trichotomy r 0 with h0 | h0 | h0
  · rw [int_sign_neg h0] at h; omega
  · subst h0; rw [int_sign_zero] at h; omega
  · rw [int_sign_pos h0] at h; omega

/-- For a delta of magnitude at least 2 the inset span is the strict interior. -/
theorem inset_iff_strict (v r p : Int) (h2 : 2 ≤ r.natAbs) :
    (min (v + int_sign r) (v + int_sign r + (r - 2 * int_sign r)) ≤ p ∧
      p ≤ max (v + int_sign r) (v + int_sign r + (r - 2 * int_sign r))) ↔
    (min v (v + r) < p ∧ p < max v (v + r)) := by
  rcases lt_trichotomy r 0 with h0 | h0 | h0
  · rw [int_sign_neg h0]; omega
  · subst h0; simp at h2
  · rw [int_sign_pos h0]; omega

theorem inset_iff_span (v r p : Int) :
    (min (v + int_sign r) (v + int_sign r + (r - 2 * int_sign r)) ≤ p ∧
      p ≤ max (v + int_sign r) (v + int_sign r + (r - 2 * int_sign r))) ↔
    (min (v + int_sign r) (v + r - int_sign r) ≤ p ∧
      p ≤ max (v + int_sign r) (v + r - int_sign r)) := by
  have : v + int_sign r + (r - 2 * int_sign r) = v + r - int_sign r := by ring
  rw [this]

theorem vgahlpr_draw_outlined_rectangle_eq (fuel : Nat) (x y run rise : Int) (oc fc : byte)
    (s : Machine) (hf1 : run.natAbs < fuel) (hf2 : rise.natAbs < fuel) :
    vgahlpr_draw_outlined_rectangle fuel x y run rise oc fc s
      = some (plots fc
          (filled_rectangle_pixels (x + int_sign run) (y + int_sign rise)
            (run - 2 * int_sign run) (rise - 2 * int_sign rise))
          (plots oc (rectangle_pixels x y run rise) s)) := by
  unfold vgahlpr_draw_outlined_rectangle
  rw [vgahlpr_draw_rectangle_eq _ _ _ _ _ _ _ hf1 hf2]
  simp only [Option.bind_eq_bind, Option.some_bind]
  rw [vgahlpr_draw_filled_rectangle_eq _ _ _ _ _ _ _
    (lt_of_le_of_lt (natAbs_inset_le run) hf1) (lt_of_le_of_lt (natAbs_inset_le rise) hf2)]

/-- What an on-screen pixel reads after the outline and then the inset fill. -/
theorem outlined_read (x y run rise : Int) (oc fc : byte) (s : Machine)
    (hx : 0 ≤ x ∧ x < 320) (hxr : 0 ≤ x + run ∧ x + run < 320)
    (hy : 0 ≤ y ∧ y < 200) (hyr : 0 ≤ y + rise ∧ y + rise < 200)
    (px py : Int) (hpx : 0 ≤ px ∧ px < 320) (hpy : 0 ≤ py ∧ py < 200) :
    vgahlpr_read_pixel px py
        (plots fc
          (filled_rectangle_pixels (x + int_sign run) (y + int_sign rise)
            (run - 2 * int_sign run) (rise - 2 * int_sign rise))
          (plots oc (rectangle_pixels x y run rise) s))
      = if (min (x + int_sign run) (x + int_sign run + (run - 2 * int_sign run)) ≤ px ∧
              px ≤ max (x + int_sign run) (x + int_sign run + (run - 2 * int_sign run))) ∧
            (min (y + int_sign rise) (y + int_sign rise + (rise - 2 * int_sign rise)) ≤ py ∧
              py ≤ max (y + int_sign rise) (y + int_sign rise + (rise - 2 * int_sign rise)))
        then fc
        else if (min x (x + run) ≤ px ∧ px ≤ max x (x + run)) ∧
            (min y (y + rise) ≤ py ∧ py ≤ max y (y + rise)) ∧
            (px = x ∨ px = x + run ∨ py = y ∨ py = y + rise) then oc
        else vgahlpr_read_pixel px py s := by
  have hon1 : ∀ p ∈ rectangle_pixels x y run rise, on_screen p.1 p.2 := by
    rintro ⟨qx, qy⟩ hp
    rw [mem_rectangle_pixels] at hp
    exact box_on_screen x y run rise qx qy hx hxr hy hyr hp.1 hp.2.1
  have hon2 : ∀ p ∈ filled_rectangle_pixels (x + int_sign run) (y + int_sign rise)
      (run - 2 * int_sign run) (rise - 2 * int_sign rise), on_screen p.1 p.2 := by
    rintro ⟨qx, qy⟩ hp
    rw [mem_filled_rectangle_pixels] at hp
    exact box_on_screen x y run rise qx qy hx hxr hy hyr
      (inset_subset x run qx hp.1) (inset_subset y rise qy hp.2)
  have hp := (on_screen_iff px py).2 ⟨hpx, hpy⟩
  rw [plots_read _ _ _ hon2 px py hp, plots_read _ _ _ hon1 px py hp]
  simp only [mem_filled_rectangle_pixels, mem_rectangle_pixels]

theorem rectangle_pixels_on_screen (x y run rise : Int) (hx : 0 ≤ x ∧ x < 320)
    (hxr : 0 ≤ x + run ∧ x + run < 320) (hy : 0 ≤ y ∧ y < 200)
    (hyr : 0 ≤ y + rise ∧ y + rise < 200) :
    ∀ p ∈ rectangle_pixels x y run rise, on_screen p.1 p.2 := by
  rintro ⟨qx, qy⟩ hp
  rw [mem_rectangle_pixels] at hp
  exact box_on_screen x y run rise qx qy hx hxr hy hyr hp.1 hp.2.1

theorem inset_pixels_on_screen (x y run rise : Int) (hx : 0 ≤ x ∧ x < 320)
    (hxr : 0 ≤ x + run ∧ x + run < 320) (hy : 0 ≤ y ∧ y < 200)
    (hyr : 0 ≤ y + rise ∧ y + rise < 200) :
    ∀ p ∈ filled_rectangle_pixels (x + int_sign run) (y + int_sign rise)
      (run - 2 * int_sign run) (rise - 2 * int_sign rise), on_screen p.1 p.2 := by
  rintro ⟨qx, qy⟩ hp
  rw [mem_filled_rectangle_pixels] at hp
  exact box_on_screen x y run rise qx qy hx hxr hy hyr
    (inset_subset x run qx hp.1) (inset_subset y rise qy hp.2)

/-- C9: for `|run| ≥ 2` and `|rise| ≥ 2` with the box on screen,
`vgahlpr_draw_outlined_rectangle(x, y, run, rise, oc, fc)` returns; afterwards
every pixel of the box on its outermost ring (column `x` or `x+run`, or row `y`
or `y+rise`) reads `oc`, every pixel strictly inside the ring reads `fc`, every
on-screen pixel outside the box reads what it read before, and memory outside
the framebuffer is unchanged. -/
theorem draw_outlined_rectangle_ring (x y run rise : Int) (oc fc : byte) (s : Machine)
    (fuel : Nat) (hrun : 2 ≤ run.natAbs) (hrise : 2 ≤ rise.natAbs)
    (hx : 0 ≤ x ∧ x < 320) (hxr : 0 ≤ x + run ∧ x + run < 320)
    (hy : 0 ≤ y ∧ y < 200) (hyr : 0 ≤ y + rise ∧ y + rise < 200)
    (hf1 : run.natAbs < fuel) (hf2 : rise.natAbs < fuel) :
    ∃ s', vgahlpr_draw_outlined_rectangle fuel x y run rise oc fc s = some s' ∧
      (∀ px py, min x (x + run) ≤ px ∧ px ≤ max x (x + run) →
        min y (y + rise) ≤ py ∧ py ≤ max y (y + rise) →
        (px = x ∨ px = x + run ∨ py = y ∨ py = y + rise) →
        vgahlpr_read_pixel px py s' = oc) ∧
      (∀ px py, min x (x + run) < px ∧ px < max x (x + run) →
        min y (y + rise) < py ∧ py < max y (y + rise) →
        vgahlpr_read_pixel px py s' = fc) ∧
      (∀ px py, 0 ≤ px ∧ px < 320 → 0 ≤ py ∧ py < 200 →
        ¬ ((min x (x + run) ≤ px ∧ px ≤ max x (x + run)) ∧
            (min y (y + rise) ≤ py ∧ py ≤ max y (y + rise))) →
        vgahlpr_read_pixel px py s' = vgahlpr_read_pixel px py s) ∧
      (∀ a, a < 0 ∨ 64000 ≤ a → s'.VGA a = s.VGA a) := by
  refine ⟨_, vgahlpr_draw_outlined_rectangle_eq fuel x y run rise oc fc s hf1 hf2,
    ?_, ?_, ?_, ?_⟩
  · intro px py hbx hby hedge
    have hon := (on_screen_iff px py).1 (box_on_screen x y run rise px py hx hxr hy hyr hbx hby)
    rw [outlined_read x y run rise oc fc s hx hxr hy hyr px py hon.1 hon.2]
    simp only [inset_iff_strict x run px hrun, inset_iff_strict y rise py hrise]
    rw [if_neg (by omega), if_pos ⟨hbx, hby, hedge⟩]
  · intro px py hsx hsy
    have hon := (on_screen_iff px py).1 (box_on_screen x y run rise px py hx hxr hy hyr
      ⟨hsx.1.le, hsx.2.le⟩ ⟨hsy.1.le, hsy.2.le⟩)
    rw [outlined_read x y run rise oc fc s hx hxr hy hyr px py hon.1 hon.2]
    simp only [inset_iff_strict x run px hrun, inset_iff_strict y rise py hrise]
    rw [if_pos ⟨hsx, hsy⟩]
  · intro px py hpx hpy hout
    rw [outlined_read x y run rise oc fc s hx hxr hy hyr px py hpx hpy]
    simp only [inset_iff_strict x run px hrun, inset_iff_strict y rise py hrise]
    rw [if_neg (by omega), if_neg (by tauto)]
  · intro a ha
    rw [plots_outside _ _ _ (inset_pixels_on_screen x y run rise hx hxr hy hyr) a ha,
      plots_outside _ _ _ (rectangle_pixels_on_screen x y run rise hx hxr hy hyr) a ha]

/-- Witness of C9: the 11x11 box at the origin, outline 1, fill 2. -/
theorem draw_outlined_rectangle_ring_witness :
    ∃ s', vgahlpr_draw_outlined_rectangle 11 0 0 10 10 1 2 blank = some s' ∧
      vgahlpr_read_pixel 0 0 s' = 1 ∧ vgahlpr_read_pixel 10 10 s' = 1 ∧
      vgahlpr_read_pixel 5 0 s' = 1 ∧ vgahlpr_read_pixel 10 3 s' = 1 ∧
      vgahlpr_read_pixel 1 1 s' = 2 ∧ vgahlpr_read_pixel 9 9 s' = 2 ∧
      vgahlpr_read_pixel 5 5 s' = 2 ∧ vgahlpr_read_pixel 11 0 s' = 0 := by
  obtain ⟨s', h1, h2, h3, h4, -⟩ :=
    draw_outlined_rectangle_ring 0 0 10 10 1 2 blank 11 (by decide) (by decide) (by decide)
      (by decide) (by decide) (by decide) (by decide) (by decide)
  refine ⟨s', h1, h2 0 0 (by decide) (by decide) (by decide),
    h2 10 10 (by decide) (by decide) (by decide), h2 5 0 (by decide) (by decide) (by decide),
    h2 10 3 (by decide) (by decide) (by decide), h3 1 1 (by decide) (by decide),
    h3 9 9 (by decide) (by decide), h3 5 5 (by decide) (by decide), ?_⟩
  rw [h4 11 0 (by decide) (by decide) (by decide)]; rfl

/-- C10 fails as stated: for the degenerate extents `run = rise = 0` the inset
fill plots a pixel (5 pixels are plotted, 4 by the outline), and the only pixel
of the box reads the fill colour 2, not the outline colour 1 that
`vgahlpr_draw_rectangle` alone leaves; for `run = 1`, `rise = 3` the perimeter
pixel `(0, 1)` reads the fill colour. -/
theorem outlined_rectangle_degenerate_counterexample :
    (vgahlpr_draw_outlined_rectangle 1 0 0 0 0 1 2 blank).map (vgahlpr_read_pixel 0 0)
        = some 2 ∧
      (vgahlpr_draw_rectangle 1 0 0 0 0 1 blank).map (vgahlpr_read_pixel 0 0) = some 1 ∧
      (vgahlpr_draw_outlined_rectangle 1 0 0 0 0 1 2 blank).map (fun s => s.plotted.length)
        = some 5 ∧
      (vgahlpr_draw_rectangle 1 0 0 0 0 1 blank).map (fun s => s.plotted.length) = some 4 ∧
      (vgahlpr_draw_outlined_rectangle 4 0 0 1 3 1 2 blank).map (vgahlpr_read_pixel 0 1)
        = some 2 ∧
      (vgahlpr_draw_rectangle 4 0 0 1 3 1 blank).map (vgahlpr_read_pixel 0 1) = some 1 := by
  decide

/-- C10 as amended: for `|run| < 2` or `|rise| < 2` with the box on screen,
`vgahlpr_draw_outlined_rectangle` returns, and its inset fill plots at least
the pixel `(x+sign(run), y+sign(rise))` and only pixels of the box spanned by
`(x, y)` and `(x+run, y+rise)`.  Afterwards a pixel of the box reads
`fill_color` when its column lies between `x+sign(run)` and `x+run-sign(run)`
and its row between `y+sign(rise)` and `y+rise-sign(rise)`, and `outline_color`
otherwise; every on-screen pixel outside the box reads what it read before and
memory outside the framebuffer is unchanged. -/
theorem draw_outlined_rectangle_degenerate (x y run rise : Int) (oc fc : byte) (s : Machine)
    (fuel : Nat) (hdeg : run.natAbs < 2 ∨ rise.natAbs < 2)
    (hx : 0 ≤ x ∧ x < 320) (hxr : 0 ≤ x + run ∧ x + run < 320)
    (hy : 0 ≤ y ∧ y < 200) (hyr : 0 ≤ y + rise ∧ y + rise < 200)
    (hf1 : run.natAbs < fuel) (hf2 : rise.natAbs < fuel) :
    ∃ sr s' L, vgahlpr_draw_rectangle fuel x y run rise oc s = some sr ∧
      vgahlpr_draw_outlined_rectangle fuel x y run rise oc fc s = some s' ∧
      s'.plotted = sr.plotted ++ L ∧
      (x + int_sign run, y + int_sign rise) ∈ L ∧
      (∀ px py, (px, py) ∈ L →
        (min x (x + run) ≤ px ∧ px ≤ max x (x + run)) ∧
        (min y (y + rise) ≤ py ∧ py ≤ max y (y + rise))) ∧
      (∀ px py, 0 ≤ px ∧ px < 320 → 0 ≤ py ∧ py < 200 →
        vgahlpr_read_pixel px py s' =
          if (min (x + int_sign run) (x + run - int_sign run) ≤ px ∧
                px ≤ max (x + int_sign run) (x + run - int_sign run)) ∧
              (min (y + int_sign rise) (y + rise - int_sign rise) ≤ py ∧
                py ≤ max (y + int_sign rise) (y + rise - int_sign rise)) then fc
          else if (min x (x + run) ≤ px ∧ px ≤ max x (x + run)) ∧
              (min y (y + rise) ≤ py ∧ py ≤ max y (y + rise)) then oc
          else vgahlpr_read_pixel px py s) ∧
      (∀ a, a < 0 ∨ 64000 ≤ a → s'.VGA a = s.VGA a) := by
  refine ⟨_, _, filled_rectangle_pixels (x + int_sign run) (y + int_sign rise)
      (run - 2 * int_sign run) (rise - 2 * int_sign rise),
    vgahlpr_draw_rectangle_eq fuel x y run rise oc s hf1 hf2,
    vgahlpr_draw_outlined_rectangle_eq fuel x y run rise oc fc s hf1 hf2,
    plots_plotted _ _ _, ?_, ?_, ?_, ?_⟩
  · rw [mem_filled_rectangle_pixels]
    omega
  · intro px py hp
    rw [mem_filled_rectangle_pixels] at hp
    exact ⟨inset_subset x run px hp.1, inset_subset y rise py hp.2⟩
  · intro px py hpx hpy
    rw [outlined_read x y run rise oc fc s hx hxr hy hyr px py hpx hpy]
    simp only [inset_iff_span x run px, inset_iff_span y rise py]
    have hedge : (min x (x + run) ≤ px ∧ px ≤ max x (x + run)) →
        (min y (y + rise) ≤ py ∧ py ≤ max y (y + rise)) →
        (px = x ∨ px = x + run ∨ py = y ∨ py = y + rise) := by
      intro h1 h2
      omega
    have hiff : ((min x (x + run) ≤ px ∧ px ≤ max x (x + run)) ∧
        (min y (y + rise) ≤ py ∧ py ≤ max y (y + rise)) ∧
        (px = x ∨ px = x + run ∨ py = y ∨ py = y + rise)) ↔
        ((min x (x + run) ≤ px ∧ px ≤ max x (x + run)) ∧
        (min y (y + rise) ≤ py ∧ py ≤ max y (y + rise))) :=
      ⟨fun h => ⟨h.1, h.2.1⟩, fun h => ⟨h.1, h.2, hedge h.1 h.2⟩⟩
    simp only [hiff]
  · intro a ha
    rw [plots_outside _ _ _ (inset_pixels_on_screen x y run rise hx hxr hy hyr) a ha,
      plots_outside _ _ _ (rectangle_pixels_on_screen x y run rise hx hxr hy hyr) a ha]

/-- Witness of amended C10: the box 2 wide and 4 high at the origin keeps the
outline colour in its first and last row only. -/
theorem draw_outlined_rectangle_degenerate_witness :
    ∃ s', vgahlpr_draw_outlined_rectangle 4 0 0 1 3 1 2 blank = some s' ∧
      vgahlpr_read_pixel 0 0 s' = 1 ∧ vgahlpr_read_pixel 1 0 s' = 1 ∧
      vgahlpr_read_pixel 0 1 s' = 2 ∧ vgahlpr_read_pixel 1 2 s' = 2 ∧
      vgahlpr_read_pixel 0 3 s' = 1 ∧ vgahlpr_read_pixel 1 3 s' = 1 ∧
      vgahlpr_read_pixel 2 1 s' = 0 := by
  obtain ⟨sr, s', L, -, h2, -, -, -, h6, -⟩ :=
    draw_outlined_rectangle_degenerate 0 0 1 3 1 2 blank 4 (by decide) (by decide)
      (by decide) (by decide) (by decide) (by decide) (by decide)
  refine ⟨s', h2, ?_, ?_, ?_, ?_, ?_, ?_, ?_⟩
  · rw [h6 0 0 (by decide) (by decide)]; rfl
  · rw [h6 1 0 (by decide) (by decide)]; rfl
  · rw [h6 0 1 (by decide) (by decide)]; rfl
  · rw [h6 1 2 (by decide) (by decide)]; rfl
  · rw [h6 0 3 (by decide) (by decide)]; rfl
  · rw [h6 1 3 (by decide) (by decide)]; rfl
  · rw [h6 2 1 (by decide) (by decide)]; rfl

/-! ## The absolute-coordinate horizontal line -/

/-- C11 fails on the code: `vgahlpr_draw_hline_absolute(0, 0, 5, 7)` plots the
column `(0,0)`, `(0,5)`, ..., `(0,1)`, where
`vgahlpr_draw_hline(0, 0, 5 - 0, 7)` plots the row `(0,0)`, `(5,0)`, ...,
`(1,0)`; afterwards `(5, 0)` is untouched and `(0, 5)` is set, the opposite of
what the horizontal line leaves. -/
theorem draw_hline_absolute_plots_column :
    (vgahlpr_draw_hline_absolute 6 0 0 5 7 blank).map Machine.plotted
        = some [(0, 0), (0, 5), (0, 4), (0, 3), (0, 2), (0, 1)] ∧
      (vgahlpr_draw_hline 6 0 0 (5 - 0) 7 blank).map Machine.plotted
        = some [(0, 0), (5, 0), (4, 0), (3, 0), (2, 0), (1, 0)] ∧
      (vgahlpr_draw_hline_absolute 6 0 0 5 7 blank).map (vgahlpr_read_pixel 5 0) = some 0 ∧
      (vgahlpr_draw_hline 6 0 0 (5 - 0) 7 blank).map (vgahlpr_read_pixel 5 0) = some 7 ∧
      (vgahlpr_draw_hline_absolute 6 0 0 5 7 blank).map (vgahlpr_read_pixel 0 5) = some 7 ∧
      (vgahlpr_draw_hline 6 0 0 (5 - 0) 7 blank).map (vgahlpr_read_pixel 0 5) = some 0 := by
  decide

/-! ## The diagnostic build -/

/-- C13 fails on the code: in a `DEBUG` build `vgahlpr_draw_pixel(320, 0, 7)`
stores at offset 320, which is pixel `(0, 1)`, `vgahlpr_draw_pixel(0, 200, 7)`
stores at offset 64000, past the framebuffer, and `vgahlpr_draw_pixel(-1, 0, 7)`
stores at offset -1, before it; nothing is printed and the video mode is not
changed. -/
theorem draw_pixel_debug_stores_out_of_bounds :
    blank_debug.DEBUG = true ∧
      vgahlpr_read_pixel 0 1 blank_debug = 0 ∧
      vgahlpr_read_pixel 0 1 (vgahlpr_draw_pixel 320 0 7 blank_debug) = 7 ∧
      (vgahlpr_draw_pixel 320 0 7 blank_debug).console = [] ∧
      (vgahlpr_draw_pixel 320 0 7 blank_debug).video_mode = 0x13 ∧
      (vgahlpr_draw_pixel 0 200 7 blank_debug).VGA 64000 = 7 ∧
      (vgahlpr_draw_pixel 0 200 7 blank_debug).console = [] ∧
      (vgahlpr_draw_pixel (-1) 0 7 blank_debug).VGA (-1) = 7 ∧
      (vgahlpr_draw_pixel (-1) 0 7 blank_debug).console = [] := by
  decide

/-! ## The address map -/

/-- C17: for an on-screen coordinate the index `(y<<8) + (y<<6) + x` equals
`y*320 + x` and lies in `[0, 64000)`; it is the index at which
`vgahlpr_draw_pixel` stores and `vgahlpr_read_pixel` loads. -/
theorem pixel_offset_row_major (x y : Int) (hx : 0 ≤ x ∧ x < 320) (hy : 0 ≤ y ∧ y < 200) :
    (y <<< (8 : Int)) + (y <<< (6 : Int)) + x = y * 320 + x ∧
      0 ≤ y * 320 + x ∧ y * 320 + x < 64000 ∧
      (∀ (color : byte) (s : Machine) (a : Int),
        (vgahlpr_draw_pixel x y color s).VGA a
          = if a = y * 320 + x then color else s.VGA a) ∧
      (∀ s : Machine, vgahlpr_read_pixel x y s = s.VGA (y * 320 + x)) := by
  refine ⟨pixel_offset_eq x y, by omega, by omega, ?_, ?_⟩
  · intro color s a
    rw [vgahlpr_draw_pixel_eq]
    simp only [VGA_store, pixel_offset_eq]
  · intro s
    simp only [vgahlpr_read_pixel, pixel_offset_eq]

/-- Witness of C17 at the last pixel of the screen: offset 63999. -/
theorem pixel_offset_row_major_witness :
    ((199 : Int) <<< (8 : Int)) + ((199 : Int) <<< (6 : Int)) + 319 = 199 * 320 + 319 ∧
      (199 : Int) * 320 + 319 < 64000 ∧
      vgahlpr_read_pixel 319 199 blank = blank.VGA (199 * 320 + 319) := by
  obtain ⟨h1, -, h3, -, h5⟩ := pixel_offset_row_major 319 199 (by decide) (by decide)
  exact ⟨h1, h3, h5 blank⟩

/-- C20: for an on-screen `(x, y)` and a different on-screen `(x', y')`,
`vgahlpr_draw_pixel(x, y, color)` leaves `vgahlpr_read_pixel(x', y')`
unchanged: the two pixels have different offsets, the byte at the offset of
`(x, y)` becomes `color` and every other byte of memory keeps its value. -/
theorem draw_pixel_frame (x y x' y' : Int) (color : byte) (s : Machine)
    (hx : 0 ≤ x ∧ x < 320) (hy : 0 ≤ y ∧ y < 200)
    (hx' : 0 ≤ x' ∧ x' < 320) (hy' : 0 ≤ y' ∧ y' < 200) (hne : (x', y') ≠ (x, y)) :
    vgahlpr_read_pixel x' y' (vgahlpr_draw_pixel x y color s) = vgahlpr_read_pixel x' y' s ∧
      pixel_offset x' y' ≠ pixel_offset x y ∧
      (vgahlpr_draw_pixel x y color s).VGA (pixel_offset x y) = color ∧
      (∀ a, a ≠ pixel_offset x y → (vgahlpr_draw_pixel x y color s).VGA a = s.VGA a) := by
  have hoff : pixel_offset x' y' ≠ pixel_offset x y := by
    intro e
    obtain ⟨e1, e2⟩ := pixel_offset_inj ((on_screen_iff x' y').2 ⟨hx', hy'⟩)
      ((on_screen_iff x y).2 ⟨hx, hy⟩) e
    exact hne (by rw [e1, e2])
  rw [vgahlpr_draw_pixel_eq]
  refine ⟨?_, hoff, ?_, ?_⟩
  · simp [vgahlpr_read_pixel, VGA_store, hoff]
  · simp [VGA_store]
  · intro a ha
    simp [VGA_store, ha]

/-- Witness of C20: drawing the last pixel of row 0 leaves the first pixel of
row 1, the next byte of the framebuffer, alone. -/
theorem draw_pixel_frame_witness :
    vgahlpr_read_pixel 0 1 (vgahlpr_draw_pixel 319 0 7 blank) = vgahlpr_read_pixel 0 1 blank ∧
      pixel_offset 0 1 ≠ pixel_offset 319 0 :=
  ⟨(draw_pixel_frame 319 0 0 1 7 blank (by decide) (by decide) (by decide) (by decide)
      (by decide)).1,
    (draw_pixel_frame 319 0 0 1 7 blank (by decide) (by decide) (by decide) (by decide)
      (by decide)).2.1⟩

/-! ## The line against the specification's algorithm -/

theorem int_sign_eq_sign (r : Int) : int_sign r = Int.sign r := by
  rcases lt_trichotomy r 0 with h | h | h
  · rw [int_sign_neg h, Int.sign_eq_neg_one_of_neg h]
  · subst h; rfl
  · rw [int_sign_pos h, Int.sign_eq_one_of_pos h]

theorem reference_steps_eq_run_trace (A B sa sb : Int) :
    ∀ (n : Nat) (acc a b : Int),
      reference_steps A B sa sb n acc a b = run_trace A B sa sb n acc a b := by
  intro n
  induction n with
  | zero => intro acc a b; rfl
  | succ n ih =>
    intro acc a b
    by_cases h : acc + B ≥ A
    · simp only [reference_steps, run_trace, h, if_true, decide_True, ih]
    · simp only [reference_steps, run_trace, h, if_false, decide_False, Bool.false_eq_true, ih]

theorem spec_drawLine_half_major_eq (x y run rise : Int) :
    spec_drawLine_half_major x y run rise = line_pixels x y run rise := by
  unfold spec_drawLine_half_major reference_line line_pixels
  simp only [abs_eq_natAbs, shiftRight_one, int_sign_eq_sign, reference_steps_eq_run_trace]
  split <;> rfl

/-- C14 fails as stated: for `run = 4`, `rise = 2` the code plots
`(0,0),(1,1),(2,1),(3,2),(4,2)`, while the algorithm with the accumulator
started at half the minor-axis magnitude plots `(0,0),(1,0),(2,1),(3,1),(4,2)`. -/
theorem draw_line_not_half_minor :
    (vgahlpr_draw_line 0 0 4 2 7 blank).plotted = [(0, 0), (1, 1), (2, 1), (3, 2), (4, 2)] ∧
      spec_drawLine 0 0 4 2 = [(0, 0), (1, 0), (2, 1), (3, 1), (4, 2)] ∧
      (vgahlpr_draw_line 0 0 4 2 7 blank).plotted ≠ blank.plotted ++ spec_drawLine 0 0 4 2 := by
  decide

/-- C14 as amended: the pixel sequence plotted by `vgahlpr_draw_line` is the
sequence of the specification's algorithm with the accumulator initialised to
half the major-axis magnitude (rounded down): major axis the larger of `|run|`,
`|rise|` with ties to the run axis, the start pixel first, then
`max(|run|,|rise|)` steps, each advancing the major coordinate by its sign,
adding the minor magnitude to the accumulator and, when the accumulator reaches
or exceeds the major magnitude, subtracting it and advancing the minor
coordinate by its sign. -/
theorem draw_line_refines_half_major (x y run rise : Int) (color : byte) (s : Machine) :
    (vgahlpr_draw_line x y run rise color s).plotted
      = s.plotted ++ spec_drawLine_half_major x y run rise := by
  rw [vgahlpr_draw_line_eq, plots_plotted, spec_drawLine_half_major_eq]

/-! ## Shape of the line -/

/-- One step of the accumulator moves the minor offset by 0 or 1. -/
theorem minor_step (A B t : Int) (hA : 0 < A) (hB : 0 ≤ B) (hBA : B ≤ A) :
    0 ≤ (t + B) / A - t / A ∧ (t + B) / A - t / A ≤ 1 := by
  have h1 : t / A ≤ (t + B) / A := Int.ediv_le_ediv hA (by omega)
  have h2 : (t + B) / A ≤ (t + 1 * A) / A := Int.ediv_le_ediv hA (by omega)
  rw [Int.add_mul_ediv_right t 1 (ne_of_gt hA)] at h2
  omega

/-- The minor offset stays between 0 and the minor delta. -/
theorem minor_range (A B k : Int) (hA : 0 < A) (hB : 0 ≤ B) (hk : 0 ≤ k) (hkA : k ≤ A) :
    0 ≤ (A / 2 + k * B) / A ∧ (A / 2 + k * B) / A ≤ B := by
  constructor
  · exact Int.ediv_nonneg (add_nonneg (by omega) (mul_nonneg hk hB)) hA.le
  · have h1 : k * B ≤ A * B := mul_le_mul_of_nonneg_right hkA hB
    have h2 : (A / 2 + k * B) / A ≤ (A / 2 + A * B) / A := Int.ediv_le_ediv hA (by omega)
    rwa [minor_at_end A B hA] at h2

/-- Each plotted pixel is within half a pixel of the ideal line. -/
theorem half_pixel (A B k : Int) (hA : 0 < A) :
    2 * ((k * B - (k * B + A / 2) / A * A).natAbs : Int) ≤ A := by
  have h := Int.ediv_add_emod (k * B + A / 2) A
  have h0 := Int.emod_nonneg (k * B + A / 2) (ne_of_gt hA)
  have h1 := Int.emod_lt_of_pos (k * B + A / 2) hA
  generalize (k * B + A / 2) / A = m at *
  generalize (k * B + A / 2) % A = e at *
  have e1 : k * B - m * A = e - A / 2 := by linear_combination -h
  rw [e1]
  omega

/-- `m` steps of `sign(r)` from `v`, with `0 ≤ m ≤ |r|`, stay between `v` and
`v + r`. -/
theorem span_of_steps (v r m : Int) (h0 : 0 ≤ m) (h1 : m ≤ r.natAbs) :
    min v (v + r) ≤ v + m * int_sign r ∧ v + m * int_sign r ≤ max v (v + r) := by
  rcases lt_trichotomy r 0 with h | h | h
  · rw [int_sign_neg h, mul_neg, mul_one]; omega
  · subst h; rw [int_sign_zero, mul_zero]; omega
  · rw [int_sign_pos h, mul_one]; omega

/-- Every pixel of a line lies in the bounding box of its endpoints. -/
theorem line_pixels_in_box (x y run rise : Int) :
    ∀ p ∈ line_pixels x y run rise,
      (min x (x + run) ≤ p.1 ∧ p.1 ≤ max x (x + run)) ∧
      (min y (y + rise) ≤ p.2 ∧ p.2 ≤ max y (y + rise)) := by
  intro p hp
  obtain ⟨k, hk⟩ := List.mem_iff_getElem?.1 hp
  have hlen : k < (line_pixels x y run rise).length := by
    obtain ⟨h, -⟩ := List.getElem?_eq_some.1 hk
    exact h
  rw [length_line_pixels] at hlen
  by_cases h : rise.natAbs ≤ run.natAbs
  · rw [max_eq_left h] at hlen
    rw [line_pixels_getElem_run x y run rise h k (by omega)] at hk
    have hp' := Option.some.inj hk
    subst hp'
    by_cases h0 : run = 0
    · have hr : rise = 0 := by subst h0; simpa using h
      subst h0; subst hr
      simp [int_sign_zero]
    · have hm := minor_range run.natAbs rise.natAbs k (by omega) (by omega) (by omega)
        (by omega)
      exact ⟨span_of_steps x run k (by omega) (by omega),
        span_of_steps y rise _ hm.1 hm.2⟩
  · have h' : run.natAbs < rise.natAbs := by omega
    rw [max_eq_right h'.le] at hlen
    rw [line_pixels_getElem_rise x y run rise h' k (by omega)] at hk
    have hp' := Option.some.inj hk
    subst hp'
    have hm := minor_range rise.natAbs run.natAbs k (by omega) (by omega) (by omega)
      (by omega)
    exact ⟨span_of_steps x run _ hm.1 hm.2, span_of_steps y rise k (by omega) (by omega)⟩

/-- Consecutive pixels of a line at least as wide as high. -/
theorem line_step_run (x y run rise : Int) (h : rise.natAbs ≤ run.natAbs)
    (k : Nat) (hk : k < run.natAbs) :
    ∃ p q, (line_pixels x y run rise)[k]? = some p ∧
      (line_pixels x y run rise)[k + 1]? = some q ∧
      (q.1 - p.1).natAbs = 1 ∧ (q.2 - p.2).natAbs ≤ 1 := by
  refine ⟨_, _, line_pixels_getElem_run x y run rise h k hk.le,
    line_pixels_getElem_run x y run rise h (k + 1) hk, ?_, ?_⟩
  · have hs : (int_sign run).natAbs = 1 := by
      rcases lt_trichotomy run 0 with h0 | h0 | h0
      · rw [int_sign_neg h0]; rfl
      · subst h0; simp at hk
      · rw [int_sign_pos h0]; rfl
    have e : x + ((k + 1 : Nat) : Int) * int_sign run - (x + (k : Int) * int_sign run)
        = int_sign run := by push_cast; ring
    show (x + ((k + 1 : Nat) : Int) * int_sign run - (x + (k : Int) * int_sign run)).natAbs = 1
    rw [e, hs]
  · have hm := minor_step run.natAbs rise.natAbs ((run.natAbs : Int) / 2 + (k : Int) * rise.natAbs)
      (by omega) (by omega) (by exact_mod_cast h)
    have e0 : (run.natAbs : Int) / 2 + ((k + 1 : Nat) : Int) * rise.natAbs
        = (run.natAbs : Int) / 2 + (k : Int) * rise.natAbs + rise.natAbs := by push_cast; ring
    rw [← e0] at hm
    generalize ((run.natAbs : Int) / 2 + ((k + 1 : Nat) : Int) * rise.natAbs) / run.natAbs
      = m' at *
    generalize ((run.natAbs : Int) / 2 + (k : Int) * rise.natAbs) / run.natAbs = m at *
    have e : y + m' * int_sign rise - (y + m * int_sign rise) = (m' - m) * int_sign rise := by
      ring
    show (y + m' * int_sign rise - (y + m * int_sign rise)).natAbs ≤ 1
    rw [e, Int.natAbs_mul]
    have hd : (m' - m).natAbs ≤ 1 := by omega
    exact Nat.mul_le_mul hd (natAbs_int_sign_le rise)

/-- Consecutive pixels of a line higher than wide. -/
theorem line_step_rise (x y run rise : Int) (h : run.natAbs < rise.natAbs)
    (k : Nat) (hk : k < rise.natAbs) :
    ∃ p q, (line_pixels x y run rise)[k]? = some p ∧
      (line_pixels x y run rise)[k + 1]? = some q ∧
      (q.2 - p.2).natAbs = 1 ∧ (q.1 - p.1).natAbs ≤ 1 := by
  refine ⟨_, _, line_pixels_getElem_rise x y run rise h k hk.le,
    line_pixels_getElem_rise x y run rise h (k + 1) hk, ?_, ?_⟩
  · have hs : (int_sign rise).natAbs = 1 := by
      rcases lt_trichotomy rise 0 with h0 | h0 | h0
      · rw [int_sign_neg h0]; rfl
      · subst h0; simp at hk
      · rw [int_sign_pos h0]; rfl
    have e : y + ((k + 1 : Nat) : Int) * int_sign rise - (y + (k : Int) * int_sign rise)
        = int_sign rise := by push_cast; ring
    show (y + ((k + 1 : Nat) : Int) * int_sign rise - (y + (k : Int) * int_sign rise)).natAbs = 1
    rw [e, hs]
  · have hm := minor_step rise.natAbs run.natAbs ((rise.natAbs : Int) / 2 + (k : Int) * run.natAbs)
      (by omega) (by omega) (by omega)
    have e0 : (rise.natAbs : Int) / 2 + ((k + 1 : Nat) : Int) * run.natAbs
        = (rise.natAbs : Int) / 2 + (k : Int) * run.natAbs + run.natAbs := by push_cast; ring
    rw [← e0] at hm
    generalize ((rise.natAbs : Int) / 2 + ((k + 1 : Nat) : Int) * run.natAbs) / rise.natAbs
      = m' at *
    generalize ((rise.natAbs : Int) / 2 + (k : Int) * run.natAbs) / rise.natAbs = m at *
    have e : x + m' * int_sign run - (x + m * int_sign run) = (m' - m) * int_sign run := by
      ring
    show (x + m' * int_sign run - (x + m * int_sign run)).natAbs ≤ 1
    rw [e, Int.natAbs_mul]
    have hd : (m' - m).natAbs ≤ 1 := by omega
    exact Nat.mul_le_mul hd (natAbs_int_sign_le run)

/-- C15: the pixels plotted by `vgahlpr_draw_line` are `max(|run|,|rise|)+1`
pixels, one per major-axis step: the `k`-th has major coordinate
`start + k*sign(major delta)`, and each pixel differs from its predecessor by
exactly 1 on the major axis and by at most 1 on the minor axis, so the path is
8-connected with no gaps. -/
theorem draw_line_connected (x y run rise : Int) (color : byte) (s : Machine) :
    ∃ L, (vgahlpr_draw_line x y run rise color s).plotted = s.plotted ++ L ∧
      L.length = max run.natAbs rise.natAbs + 1 ∧
      (rise.natAbs ≤ run.natAbs →
        (∀ k : Nat, k ≤ run.natAbs → ∃ p, L[k]? = some p ∧ p.1 = x + (k : Int) * Int.sign run) ∧
        (∀ k : Nat, k < run.natAbs → ∃ p q, L[k]? = some p ∧ L[k + 1]? = some q ∧
          (q.1 - p.1).natAbs = 1 ∧ (q.2 - p.2).natAbs ≤ 1)) ∧
      (run.natAbs < rise.natAbs →
        (∀ k : Nat, k ≤ rise.natAbs → ∃ p, L[k]? = some p ∧ p.2 = y + (k : Int) * Int.sign rise) ∧
        (∀ k : Nat, k < rise.natAbs → ∃ p q, L[k]? = some p ∧ L[k + 1]? = some q ∧
          (q.2 - p.2).natAbs = 1 ∧ (q.1 - p.1).natAbs ≤ 1)) := by
  refine ⟨line_pixels x y run rise, ?_, length_line_pixels x y run rise, ?_, ?_⟩
  · rw [vgahlpr_draw_line_eq, plots_plotted]
  · intro h
    refine ⟨fun k hk => ⟨_, line_pixels_getElem_run x y run rise h k hk, ?_⟩,
      line_step_run x y run rise h⟩
    simp only [int_sign_eq_sign]
  · intro h
    refine ⟨fun k hk => ⟨_, line_pixels_getElem_rise x y run rise h k hk, ?_⟩,
      line_step_rise x y run rise h⟩
    simp only [int_sign_eq_sign]

/-- C18: when both endpoints `(x, y)` and `(x+run, y+rise)` are on screen, every
pixel `vgahlpr_draw_line` plots lies in the bounding box of the endpoints and
its offset lies in `[0, 64000)`; a byte of memory changes only at the offset of
a plotted pixel, so on-screen pixels outside the box and memory outside the
framebuffer are unchanged. -/
theorem draw_line_in_box (x y run rise : Int) (color : byte) (s : Machine)
    (hx : 0 ≤ x ∧ x < 320) (hxr : 0 ≤ x + run ∧ x + run < 320)
    (hy : 0 ≤ y ∧ y < 200) (hyr : 0 ≤ y + rise ∧ y + rise < 200) :
    ∃ L, (vgahlpr_draw_line x y run rise color s).plotted = s.plotted ++ L ∧
      (∀ p ∈ L, (min x (x + run) ≤ p.1 ∧ p.1 ≤ max x (x + run)) ∧
        (min y (y + rise) ≤ p.2 ∧ p.2 ≤ max y (y + rise))) ∧
      (∀ p ∈ L, 0 ≤ pixel_offset p.1 p.2 ∧ pixel_offset p.1 p.2 < 64000) ∧
      (∀ a, (vgahlpr_draw_line x y run rise color s).VGA a ≠ s.VGA a →
        ∃ p ∈ L, a = pixel_offset p.1 p.2) ∧
      (∀ px py, 0 ≤ px ∧ px < 320 → 0 ≤ py ∧ py < 200 →
        ¬ ((min x (x + run) ≤ px ∧ px ≤ max x (x + run)) ∧
            (min y (y + rise) ≤ py ∧ py ≤ max y (y + rise))) →
        vgahlpr_read_pixel px py (vgahlpr_draw_line x y run rise color s)
          = vgahlpr_read_pixel px py s) ∧
      (∀ a, a < 0 ∨ 64000 ≤ a →
        (vgahlpr_draw_line x y run rise color s).VGA a = s.VGA a) := by
  have hbox := line_pixels_in_box x y run rise
  have hon : ∀ p ∈ line_pixels x y run rise, on_screen p.1 p.2 := fun p hp =>
    box_on_screen x y run rise p.1 p.2 hx hxr hy hyr (hbox p hp).1 (hbox p hp).2
  refine ⟨line_pixels x y run rise, ?_, hbox, fun p hp => pixel_offset_range (hon p hp),
    ?_, ?_, ?_⟩
  · rw [vgahlpr_draw_line_eq, plots_plotted]
  · intro a ha
    rw [vgahlpr_draw_line_eq, plots_VGA] at ha
    by_contra hno
    exact ha (if_neg hno)
  · intro px py hpx hpy hout
    rw [vgahlpr_draw_line_eq,
      plots_read _ _ _ hon px py ((on_screen_iff px py).2 ⟨hpx, hpy⟩), if_neg]
    intro hmem
    exact hout (hbox (px, py) hmem)
  · intro a ha
    rw [vgahlpr_draw_line_eq, plots_outside _ _ _ hon a ha]

/-- Witness of C18: the line from `(0, 0)` by `(4, 2)` leaves `(1, 3)` alone. -/
theorem draw_line_in_box_witness :
    vgahlpr_read_pixel 1 3 (vgahlpr_draw_line 0 0 4 2 7 blank) = vgahlpr_read_pixel 1 3 blank ∧
      (vgahlpr_draw_line 0 0 4 2 7 blank).VGA 64000 = blank.VGA 64000 := by
  obtain ⟨L, -, -, -, -, h5, h6⟩ :=
    draw_line_in_box 0 0 4 2 7 blank (by decide) (by decide) (by decide) (by decide)
  exact ⟨h5 1 3 (by decide) (by decide) (by decide), h6 64000 (by decide)⟩

/-- C19: with `A = max(|run|,|rise|) > 0` and `B = min(|run|,|rise|)`, the `k`-th
pixel plotted by `vgahlpr_draw_line`, for `k` in `0..A`, is `k` steps along the
major axis and `m = (k*B + A/2) / A` steps along the minor axis (integer
division), and `2*|k*B - m*A| ≤ A`: it is within half a pixel of the ideal
line on the minor axis. -/
theorem draw_line_minor_offset (x y run rise : Int) (color : byte) (s : Machine)
    (hA : 0 < max run.natAbs rise.natAbs) :
    ∃ L, (vgahlpr_draw_line x y run rise color s).plotted = s.plotted ++ L ∧
      ∀ k : Nat, k ≤ max run.natAbs rise.natAbs →
        (rise.natAbs ≤ run.natAbs →
          L[k]? = some (x + (k : Int) * Int.sign run,
            y + (((k : Int) * (min run.natAbs rise.natAbs : Nat)
              + (max run.natAbs rise.natAbs : Nat) / 2)
                / (max run.natAbs rise.natAbs : Nat)) * Int.sign rise)) ∧
        (run.natAbs < rise.natAbs →
          L[k]? = some (x + (((k : Int) * (min run.natAbs rise.natAbs : Nat)
              + (max run.natAbs rise.natAbs : Nat) / 2)
                / (max run.natAbs rise.natAbs : Nat)) * Int.sign run,
            y + (k : Int) * Int.sign rise)) ∧
        2 * (((k : Int) * (min run.natAbs rise.natAbs : Nat)
            - (((k : Int) * (min run.natAbs rise.natAbs : Nat)
              + (max run.natAbs rise.natAbs : Nat) / 2)
                / (max run.natAbs rise.natAbs : Nat)) * (max run.natAbs rise.natAbs : Nat)).natAbs
            : Int) ≤ (max run.natAbs rise.natAbs : Nat) := by
  refine ⟨line_pixels x y run rise, ?_, ?_⟩
  · rw [vgahlpr_draw_line_eq, plots_plotted]
  · intro k hk
    refine ⟨?_, ?_, half_pixel _ _ _ (by exact_mod_cast hA)⟩
    · intro h
      rw [max_eq_left h] at hk ⊢
      rw [min_eq_right h, line_pixels_getElem_run x y run rise h k hk, int_sign_eq_sign,
        int_sign_eq_sign, add_comm ((run.natAbs : Int) / 2)]
    · intro h
      rw [max_eq_right h.le] at hk ⊢
      rw [min_eq_left h.le, line_pixels_getElem_rise x y run rise h k hk, int_sign_eq_sign,
        int_sign_eq_sign, add_comm ((rise.natAbs : Int) / 2)]

/-- Witness of C19: step 1 of the line by `(4, 2)` is a tie and is rounded up:
`m = (1*2 + 4/2) / 4 = 1`. -/
theorem draw_line_minor_offset_witness :
    ∃ L, (vgahlpr_draw_line 0 0 4 2 7 blank).plotted = blank.plotted ++ L ∧
      L[1]? = some (1, 1) := by
  obtain ⟨L, h1, h2⟩ := draw_line_minor_offset 0 0 4 2 7 blank (by decide)
  refine ⟨L, h1, ?_⟩
  have := (h2 1 (by decide)).1 (by decide)
  simpa using this

/-! ## The circle -/

/-- Entries of the exact table: 1 at index 0, `sqrt 3 / 2` at index 512 (both
scaled by 65536 and rounded down), and 0 for a read past the table. -/
theorem SIN_ACOS_exact_entries :
    SIN_ACOS_exact 0 = 65536 ∧ SIN_ACOS_exact 512 = 56755 ∧ SIN_ACOS_exact 1023 = 2895 ∧
      SIN_ACOS_exact 1024 = 0 := by
  decide

theorem VGA_write_of (a b : Int) (c : byte) (s : Machine) (h : b = a ∨ s.VGA b = c) :
    (VGA_write a c s).VGA b = c := by
  unfold VGA_write
  by_cases e : b = a
  · simp [e]
  · simp only [e, if_false]
    exact h.resolve_left e

/-- The circle loop never restores a byte it has set to `color`, and only adds
to the trace of table reads. -/
theorem circle_loop_keeps (T : Int → Int) (radius inv i offset : Int) (c : byte) :
    ∀ (fuel : Nat) (n dx dy : Int) (s : Machine) (reads : List Int) (r : Machine × List Int),
      circle_loop T radius inv i offset c fuel n dx dy s reads = some r →
      (∀ a, s.VGA a = c → r.1.VGA a = c) ∧ ∃ t, r.2 = reads ++ t := by
  intro fuel
  induction fuel with
  | zero => intro n dx dy s reads r h; simp [circle_loop] at h
  | succ fuel ih =>
    intro n dx dy s reads r h
    by_cases hle : dx ≤ dy
    · simp only [circle_loop, hle, if_true] at h
      obtain ⟨h1, t, h2⟩ := ih _ _ _ _ _ r h
      refine ⟨fun a ha => h1 a ?_, ⟨(n + inv) >>> (6 : Nat) :: t, by rw [h2]; simp⟩⟩
      iterate 8 apply VGA_write_of; right
      exact ha
    · simp only [circle_loop, hle, if_false, Option.some.injEq] at h
      subst h
      exact ⟨fun a ha => ha, ⟨[], by simp⟩⟩

/-- One turn of the circle loop: the stores of octants 1 and 6 and the table
read that follows them. -/
theorem circle_loop_turn (T : Int → Int) (radius inv i offset : Int) (c : byte)
    (fuel : Nat) (n dx dy : Int) (s : Machine) (reads : List Int) (r : Machine × List Int)
    (hle : dx ≤ dy)
    (h : circle_loop T radius inv i offset c (fuel + 1) n dx dy s reads = some r) :
    r.1.VGA (offset + dx - to_word ((dy <<< (8 : Int)) + (dx <<< (6 : Int)))) = c ∧
      r.1.VGA (offset + dx + to_word ((dy <<< (8 : Int)) + (dx <<< (6 : Int)))) = c ∧
      ∃ t, r.2 = reads ++ (n + inv) >>> (6 : Nat) :: t := by
  simp only [circle_loop, hle, if_true] at h
  obtain ⟨h1, t, h2⟩ := circle_loop_keeps _ _ _ _ _ _ _ _ _ _ _ _ r h
  refine ⟨h1 _ ?_, h1 _ ?_, ⟨t, by rw [h2]; simp⟩⟩
  · iterate 6 apply VGA_write_of; right
    apply VGA_write_of; left; rfl
  · apply VGA_write_of; right
    apply VGA_write_of; left; rfl

/-- C12 fails on the code, whatever the table holds, whatever the reciprocal
and whatever value the unassigned local `i` has: when
`vgahlpr_draw_circle(50, 50, 10, color)` returns, the pixels `(114, 57)` and
`(306, 42)` hold `color`.  Their offsets are `16050 + 2304` and `16050 - 2304`,
the centre's offset plus and minus `y_offset = (9<<8) + (0<<6)`, and they lie
far more than `10 + 1` from the centre. -/
theorem draw_circle_off_the_circle (SIN_ACOS : Int → Int) (inverse_radius i : Int)
    (fuel : Nat) (color : byte) (s : Machine) (r : Machine × List Int)
    (h : vgahlpr_draw_circle SIN_ACOS inverse_radius i fuel 50 50 10 color s = some r) :
    vgahlpr_read_pixel 114 57 r.1 = color ∧ vgahlpr_read_pixel 306 42 r.1 = color ∧
      ((10 : Int) + 1) ^ 2 < (114 - 50) ^ 2 + (57 - 50) ^ 2 ∧
      ((10 : Int) + 1) ^ 2 < (306 - 50) ^ 2 + (42 - 50) ^ 2 := by
  unfold vgahlpr_draw_circle at h
  cases fuel with
  | zero => simp [circle_loop] at h
  | succ fuel =>
    obtain ⟨h1, h2, -⟩ := circle_loop_turn _ _ _ _ _ _ _ _ _ _ _ _ r (by decide) h
    have e1 : pixel_offset 306 42
        = to_word (((50 : Int) <<< (8 : Int)) + ((50 : Int) <<< (6 : Int)) + 50) + 0
          - to_word ((((10 : Int) - 1) <<< (8 : Int)) + ((0 : Int) <<< (6 : Int))) := by
      decide
    have e2 : pixel_offset 114 57
        = to_word (((50 : Int) <<< (8 : Int)) + ((50 : Int) <<< (6 : Int)) + 50) + 0
          + to_word ((((10 : Int) - 1) <<< (8 : Int)) + ((0 : Int) <<< (6 : Int))) := by
      decide
    refine ⟨?_, ?_, by decide, by decide⟩
    · unfold vgahlpr_read_pixel; rw [e2]; exact h2
    · unfold vgahlpr_read_pixel; rw [e1]; exact h1

/-- Witness of C12's failure: with the exact table, the reciprocal 6553 of
radius 10 and `i = 0` the call returns, and `(114, 57)` has been set. -/
theorem draw_circle_off_the_circle_witness :
    ∃ r, vgahlpr_draw_circle SIN_ACOS_exact 6553 0 9 50 50 10 7 blank = some r ∧
      vgahlpr_read_pixel 114 57 r.1 = 7 ∧ vgahlpr_read_pixel 114 57 blank = 0 := by
  have hs : (vgahlpr_draw_circle SIN_ACOS_exact 6553 0 9 50 50 10 7 blank).isSome = true := by
    decide
  have h := (Option.some_get hs).symm
  exact ⟨_, h, (draw_circle_off_the_circle SIN_ACOS_exact 6553 0 9 7 blank _ h).1, rfl⟩

/-- C16 fails on the code: for `radius = 1` the reciprocal
`(1/(float)1)*0x10000L` is exactly 65536, and whatever the table holds the first
table read of `vgahlpr_draw_circle` has index `65536 >> 6 = 1024`, one past
the last entry of the 1024-entry table. -/
theorem draw_circle_reads_past_table (SIN_ACOS : Int → Int) (i : Int) (fuel : Nat)
    (center_x center_y : Int) (color : byte) (s : Machine) (r : Machine × List Int)
    (h : vgahlpr_draw_circle SIN_ACOS 65536 i fuel center_x center_y 1 color s = some r) :
    r.2.head? = some 1024 ∧ ¬ ((1024 : Int) ≤ 1023) := by
  unfold vgahlpr_draw_circle at h
  cases fuel with
  | zero => simp [circle_loop] at h
  | succ fuel =>
    obtain ⟨-, -, t, ht⟩ := circle_loop_turn _ _ _ _ _ _ _ _ _ _ _ _ r (by decide) h
    refine ⟨?_, by decide⟩
    rw [ht]
    rfl

/-- Witness of C16's failure: with the exact table the call for radius 1
returns after one turn, having read index 1024 only. -/
theorem draw_circle_reads_past_table_witness :
    ∃ r, vgahlpr_draw_circle SIN_ACOS_exact 65536 0 2 50 50 1 7 blank = some r ∧
      r.2.head? = some 1024 := by
  have hs : (vgahlpr_draw_circle SIN_ACOS_exact 65536 0 2 50 50 1 7 blank).isSome = true := by
    decide
  have h := (Option.some_get hs).symm
  exact ⟨_, h, (draw_circle_reads_past_table SIN_ACOS_exact 0 2 50 50 7 blank _ h).1⟩

end VGAHelpr
